import Mathlib

/-!
Shallow embedding of the MoveMyCode profile-analysis engine.

The TypeScript sources embedded here:
  - profiler_web_prj/lib/cachegrind-parser.ts  (class CachegrindParser)
  - profiler_web_prj/components/call-tree-viewer.tsx  (createNode, buildTreeFromNode)
  - lib/call-tree-search.ts  (class CallTreeSearchEngine)
  - lib/entry-point-matcher.ts  (class EntryPointMatcher)

JavaScript semantics is modelled explicitly:
  - numbers that can be NaN are Option Int (none is NaN); addition propagates NaN;
    the idiom (x || 0) maps undefined and NaN to 0;
  - objects used as string-keyed dictionaries are insertion-ordered association
    lists: updating an existing key keeps its position, a new key is appended;
  - strings are lists of characters; the relevant inputs are ASCII, so the
    ASCII versions of trim, toLowerCase and the whitespace class are used.
-/

set_option maxRecDepth 4000

/-- Strings are modelled as lists of characters (all relevant data is ASCII). -/
abbrev Str := List Char

/-- A JavaScript number that may be NaN: none models NaN. -/
abbrev JsNum := Option Int

/-- JavaScript addition on numbers: NaN propagates. -/
def jsAdd : JsNum → JsNum → JsNum
  | some a, some b => some (a + b)
  | _, _ => none

/-- The JavaScript idiom (x || 0) applied to a possibly-undefined, possibly-NaN
number: undefined and NaN (and 0 itself) give 0. -/
def jsOrZero : Option JsNum → Int
  | some (some n) => n
  | _ => 0

/-- JavaScript (count > 0) where count may be NaN: NaN > 0 is false. -/
def jsGtZero : JsNum → Bool
  | some n => decide (0 < n)
  | none => false

/-- Math.max on two numbers; NaN propagates. -/
def jsMax : JsNum → JsNum → JsNum
  | some a, some b => some (max a b)
  | _, _ => none

/-- Truthiness of a string-or-null value: null and the empty string are falsy. -/
def jsTruthy : Option Str → Bool
  | some s => !s.isEmpty
  | none => false

/-- The JavaScript idiom (s || d) on strings: empty string falls back to d. -/
def jsOrStr (s : Option Str) (d : Str) : Str :=
  match s with
  | some v => if v.isEmpty then d else v
  | none => d

/-- Lookup in an insertion-ordered association list (JS object property read). -/
def jsGet {α β : Type} [DecidableEq α] : List (α × β) → α → Option β
  | [], _ => none
  | (k, v) :: rest, a => if k = a then some v else jsGet rest a

/-- Write to an insertion-ordered association list (JS object property write):
an existing key keeps its position, a new key is appended at the end. -/
def jsSet {α β : Type} [DecidableEq α] : List (α × β) → α → β → List (α × β)
  | [], a, b => [(a, b)]
  | (k, v) :: rest, a, b =>
      if k = a then (k, b) :: rest else (k, v) :: jsSet rest a b

@[simp] theorem jsGet_nil {α β : Type} [DecidableEq α] (a : α) :
    jsGet ([] : List (α × β)) a = none := rfl

theorem jsGet_cons {α β : Type} [DecidableEq α] (k : α) (v : β) (rest : List (α × β)) (a : α) :
    jsGet ((k, v) :: rest) a = if k = a then some v else jsGet rest a := rfl

theorem jsGet_jsSet_self {α β : Type} [DecidableEq α] (l : List (α × β)) (a : α) (b : β) :
    jsGet (jsSet l a b) a = some b := by
  induction l with
  | nil => simp [jsSet, jsGet]
  | cons hd tl ih =>
      obtain ⟨k, v⟩ := hd
      by_cases h : k = a
      · simp [jsSet, jsGet, h]
      · simp [jsSet, jsGet, h, ih]

theorem jsGet_jsSet_ne {α β : Type} [DecidableEq α] (l : List (α × β)) (a x : α) (b : β)
    (h : x ≠ a) : jsGet (jsSet l a b) x = jsGet l x := by
  have hax : a ≠ x := fun hc => h hc.symm
  induction l with
  | nil => simp [jsSet, jsGet, hax]
  | cons hd tl ih =>
      obtain ⟨k, v⟩ := hd
      by_cases hk : k = a
      · subst hk
        simp [jsSet, jsGet, hax]
      · by_cases hx : k = x <;> simp [jsSet, jsGet, hk, hx, ih, h]

theorem jsSet_keys_mem {α β : Type} [DecidableEq α] (l : List (α × β)) (a : α) (b : β)
    (h : a ∈ l.map Prod.fst) : (jsSet l a b).map Prod.fst = l.map Prod.fst := by
  induction l with
  | nil => simp at h
  | cons hd tl ih =>
      obtain ⟨k, v⟩ := hd
      by_cases hk : k = a
      · simp [jsSet, hk]
      · have : a ∈ tl.map Prod.fst := by
          simp at h
          rcases h with h | h
          · exact absurd h.symm hk
          · simpa using h
        simp [jsSet, hk, ih this]

theorem jsSet_keys_new {α β : Type} [DecidableEq α] (l : List (α × β)) (a : α) (b : β)
    (h : a ∉ l.map Prod.fst) : (jsSet l a b).map Prod.fst = l.map Prod.fst ++ [a] := by
  induction l with
  | nil => simp [jsSet]
  | cons hd tl ih =>
      obtain ⟨k, v⟩ := hd
      simp at h
      have hk : k ≠ a := fun hc => h.1 hc.symm
      simp [jsSet, hk, ih (by simpa using h.2)]

/-- Append-if-absent, modelling JS Set.add on primitive values (SameValueZero,
under which NaN equals NaN, matching equality of the JsNum model). -/
def jsSetAdd {α : Type} [DecidableEq α] (l : List α) (a : α) : List α :=
  if a ∈ l then l else l ++ [a]

/-! String machinery mirroring the JavaScript operations used by the sources. -/

/-- The whitespace class used by JS String.prototype.trim and the regex
\s (ASCII members; the inputs involved are ASCII). -/
def jsIsWs (c : Char) : Bool :=
  c = ' ' || c = '\t' || c = '\n' || c = '\r' || c = '\x0b' || c = '\x0c'

/-- String.prototype.trim. -/
def jsTrim (s : Str) : Str :=
  ((s.dropWhile jsIsWs).reverse.dropWhile jsIsWs).reverse

mutual

/-- Helper for regexSplit: scanning inside a token (acc holds its reversed
chars); sep is the separator character class. -/
def regexSplitTok (sep : Char → Bool) : Str → Str → List Str
  | [], acc => [acc.reverse]
  | c :: cs, acc =>
      if sep c then acc.reverse :: regexSplitGap sep cs else regexSplitTok sep cs (c :: acc)

/-- Helper for regexSplit: scanning inside a separator run. -/
def regexSplitGap (sep : Char → Bool) : Str → List Str
  | [] => [[]]
  | c :: cs => if sep c then regexSplitGap sep cs else regexSplitTok sep cs [c]

end

/-- String.prototype.split with a regex matching one-or-more characters of a
class: fields are the maximal runs outside the class, with an empty field at
an end that starts or finishes with a separator, and a single empty field for
the empty string. -/
def regexSplit (sep : Char → Bool) (s : Str) : List Str := regexSplitTok sep s []

/-- String.prototype.split on the one-or-more-whitespace regex. -/
def jsSplitWs (s : Str) : List Str := regexSplit jsIsWs s

/-- String.prototype.split on a single separator character. -/
def splitOnChar (sep : Char) : Str → List Str
  | [] => [[]]
  | c :: cs =>
      let r := splitOnChar sep cs
      if c = sep then [] :: r
      else
        match r with
        | [] => [[c]]
        | t :: ts => (c :: t) :: ts

/-- The source idiom line.split(":")[1] (under a startsWith guard a colon
exists, so index 1 is present; the default is never reached then). -/
def colonField1 (s : Str) : Str := (splitOnChar ':' s).getD 1 []

/-- Decimal digit value. -/
def decDigitVal (c : Char) : Option Nat :=
  if '0' ≤ c ∧ c ≤ '9' then some (c.toNat - 48) else none

/-- Hexadecimal digit value (both cases). -/
def hexDigitVal (c : Char) : Option Nat :=
  if '0' ≤ c ∧ c ≤ '9' then some (c.toNat - 48)
  else if 'a' ≤ c ∧ c ≤ 'f' then some (c.toNat - 87)
  else if 'A' ≤ c ∧ c ≤ 'F' then some (c.toNat - 55)
  else none

def isHexDigit (c : Char) : Bool := (hexDigitVal c).isSome

/-- Accumulate the longest digit prefix. -/
def parseDigitsAux (dv : Char → Option Nat) (base : Nat) : Str → Nat → Nat
  | [], acc => acc
  | c :: cs, acc =>
      match dv c with
      | some d => parseDigitsAux dv base cs (acc * base + d)
      | none => acc

/-- Longest digit prefix, none when it is empty (the NaN case of parseInt). -/
def parseDigits (dv : Char → Option Nat) (base : Nat) : Str → Option Nat
  | [] => none
  | c :: cs =>
      match dv c with
      | some d => some (parseDigitsAux dv base cs d)
      | none => none

/-- JS parseInt(s) with no radix argument: leading whitespace skipped, optional
sign, auto-detected 0x/0X hexadecimal prefix, longest digit prefix, NaN (none)
when no digit is found. -/
def jsParseInt (s : Str) : JsNum :=
  let t := s.dropWhile jsIsWs
  let p : Int × Str :=
    match t with
    | '-' :: r => (-1, r)
    | '+' :: r => (1, r)
    | r => (1, r)
  match p.2 with
  | '0' :: 'x' :: r => (parseDigits hexDigitVal 16 r).map (fun n => p.1 * n)
  | '0' :: 'X' :: r => (parseDigits hexDigitVal 16 r).map (fun n => p.1 * n)
  | r => (parseDigits decDigitVal 10 r).map (fun n => p.1 * n)

/-- JS parseInt(s, 16): like jsParseInt but always hexadecimal (an optional
0x/0X prefix is skipped). -/
def jsParseHex (s : Str) : JsNum :=
  let t := s.dropWhile jsIsWs
  let p : Int × Str :=
    match t with
    | '-' :: r => (-1, r)
    | '+' :: r => (1, r)
    | r => (1, r)
  match p.2 with
  | '0' :: 'x' :: r => (parseDigits hexDigitVal 16 r).map (fun n => p.1 * n)
  | '0' :: 'X' :: r => (parseDigits hexDigitVal 16 r).map (fun n => p.1 * n)
  | r => (parseDigits hexDigitVal 16 r).map (fun n => p.1 * n)

/-- The match of the anchored regex for a PC prefix, 0x followed by one or more
hex digits, returning the captured text of group 1. -/
def pcPrefixMatch : Str → Option Str
  | '0' :: 'x' :: r =>
      let ds := r.takeWhile isHexDigit
      if ds.isEmpty then none else some ('0' :: 'x' :: ds)
  | _ => none

/-- Test of the unanchored-end regex used by the jump/jcnd lookahead: the line
starts with 0x and one hex digit. -/
def startsWithPc : Str → Bool
  | '0' :: 'x' :: c :: _ => isHexDigit c
  | _ => false

/-- Test of the full-string regex of an optionally 0x-prefixed hex numeral. -/
def isPcLike : Str → Bool
  | '0' :: 'x' :: r => !r.isEmpty && r.all isHexDigit
  | s => !s.isEmpty && s.all isHexDigit

/-- ASCII toLowerCase on one character. -/
def lowerChar (c : Char) : Char :=
  if 'A' ≤ c ∧ c ≤ 'Z' then Char.ofNat (c.toNat + 32) else c

/-- String.prototype.toLowerCase (ASCII; the indexed names are ASCII). -/
def strLower (s : Str) : Str := s.map lowerChar

/-- String.prototype.includes. -/
def containsSub (needle : Str) : Str → Bool
  | [] => needle.isPrefixOf ([] : Str)
  | c :: cs => needle.isPrefixOf (c :: cs) || containsSub needle cs

/-- String.prototype.startsWith. -/
def startsWithStr (pre s : Str) : Bool := pre.isPrefixOf s

example : (jsSplitWs " a  bc ".toList).map List.asString = ["", "a", "bc", ""] := by decide
example : jsSplitWs "".toList = [[]] := by decide
example : jsParseInt "0x2000".data = some 8192 := by decide
example : jsParseInt "12ab".data = some 12 := by decide
example : jsParseInt "abc".data = none := by decide
example : jsParseHex "0x10".data = some 16 := by decide
example : isPcLike "0x1008".data = true := by decide
example : isPcLike "0x".data = false := by decide
example : pcPrefixMatch "0x2000 20 12 0".data = some "0x2000".data := by decide
example : colonField1 "events: Ir Cy".data = " Ir Cy".data := by decide
example : colonField1 "cmd: ./a:b".data = " ./a".data := by decide

/-! Data model of profiler_web_prj/lib/cachegrind-parser.ts (types from the
project's profiler type declarations).  Constant never-read fields of the
internal filesData record (sourceCode, totalLines, coveredLines,
coveragePercentage, all written once and never consulted) are omitted.
LineData and PcLineData keep the executed flag as a separate field beside the
event-count map; in JS both live in one object, which only differs when an
event is literally named executed. -/

/-- The only uncaught runtime failure the parser can produce: a TypeError from
reading a property of undefined. -/
inductive JsError where
  | typeError
deriving Repr, DecidableEq

structure LineData where
  events : List (Str × JsNum)
  executed : Bool
deriving Repr, DecidableEq

structure PcLineData where
  pc : Str
  line : JsNum
  events : List (Str × JsNum)
  executed : Bool
deriving Repr, DecidableEq

/-- A call edge recorded by the calls= branch (the parser never sets the
optional sourceLine field of the TS interface, so it is omitted). -/
structure CallInfo where
  targetFile : Option Str
  targetFunction : Option Str
  count : Int
  sourcePc : Str
deriving Repr, DecidableEq

structure FunctionData where
  lines : List (JsNum × LineData)
  totals : List (Str × JsNum)
  coveredLines : List JsNum
  uncoveredLines : List JsNum
  coveragePercentage : ℚ
  pcData : Option (List (Str × PcLineData))
  calls : Option (List CallInfo)
deriving Repr, DecidableEq

structure FileEntry where
  functions : List (Str × FunctionData)
  objectFile : Option Str
deriving Repr, DecidableEq

structure ParserState where
  events : List Str
  cmd : Str
  pid : Str
  filesData : List (Str × FileEntry)
  summary : List (Str × JsNum)
  isCallgrind : Bool
  currentObjectFile : Option Str
  positions : Str
  pendingCallFile : Option Str
  pendingCallFunction : Option Str
  currentFile : Option Str
  currentFunction : Option Str
deriving Repr, DecidableEq

namespace CachegrindParser

def initState (isCg : Bool) : ParserState :=
  { events := [], cmd := [], pid := [], filesData := [], summary := [],
    isCallgrind := isCg, currentObjectFile := none, positions := "line".data,
    pendingCallFile := none, pendingCallFunction := none,
    currentFile := none, currentFunction := none }

/-- Object.fromEntries(events.map(event to [event, 0])). -/
def mkTotals (events : List Str) : List (Str × JsNum) :=
  events.foldl (fun m e => jsSet m e (some 0)) []

/-- The record created by the fn= branch. -/
def newFunctionData (events : List Str) (isCg : Bool) : FunctionData :=
  { lines := [], totals := mkTotals events, coveredLines := [], uncoveredLines := [],
    coveragePercentage := 0, pcData := if isCg then some [] else none, calls := none }

/-- events: branch.  The boolean is aggregation-cleanliness instrumentation:
re-setting the vocabulary is clean only while no function record exists yet. -/
def applyEvents (st : ParserState) (t : Str) : ParserState × Bool :=
  ({ st with events := jsSplitWs (jsTrim (colonField1 t)) },
   st.filesData.all (fun p => p.2.functions.isEmpty))

/-- fl= branch: creates the file record when new (stamping the current object
file if truthy), else refreshes its object file when one is current. -/
def applyFl (st : ParserState) (t : Str) : ParserState :=
  let f := t.drop 3
  let filesData1 :=
    match jsGet st.filesData f with
    | none =>
        jsSet st.filesData f
          { functions := [],
            objectFile :=
              match st.currentObjectFile with
              | some o => if o.isEmpty then none else some o
              | none => none }
    | some fe =>
        if jsTruthy st.currentObjectFile then
          jsSet st.filesData f { fe with objectFile := st.currentObjectFile }
        else st.filesData
  { st with currentFile := some f, filesData := filesData1 }

/-- fn= branch: always updates the current function; registers a fresh record
when both the current file and the new name are truthy.  The boolean flag
(cleanliness instrumentation) asks for a duplicate-free vocabulary. -/
def applyFn (st : ParserState) (t : Str) : Except JsError (ParserState × Bool) :=
  let fn := t.drop 3
  let st1 := { st with currentFunction := some fn }
  match st.currentFile with
  | some f =>
      if !f.isEmpty && !fn.isEmpty then
        match jsGet st.filesData f with
        | none => .error JsError.typeError
        | some fe =>
            let funcs1 := jsSet fe.functions fn (newFunctionData st.events st.isCallgrind)
            let fe1 := { fe with functions := funcs1 }
            .ok ({ st1 with filesData := jsSet st.filesData f fe1 }, decide st.events.Nodup)
      else .ok (st1, true)
  | none => .ok (st1, true)

/-- summary: branch: values aligned with the vocabulary, a missing or empty
column falling back to the string 0 before parseInt. -/
def applySummary (st : ParserState) (t : Str) : ParserState :=
  let vals := jsSplitWs (jsTrim (colonField1 t))
  let entries := st.events.mapIdx (fun idx e => (e, jsParseInt (jsOrStr (vals.get? idx) ['0'])))
  { st with summary := entries.foldl (fun m p => jsSet m p.1 p.2) [] }

/-- calls= branch, given the already consumed following line.  The edge is
pushed only when the next line carries a PC prefix and both the current file
and function are truthy; reading the record of a function that is not
registered in the current file raises an uncaught TypeError. -/
def applyCalls (st : ParserState) (t : Str) (next : Str) : Except JsError ParserState :=
  let parts := jsSplitWs (t.drop 6)
  let callCount : Int :=
    match jsParseInt (parts.getD 0 []) with
    | some n => if n = 0 then 1 else n
    | none => 1
  match pcPrefixMatch (jsTrim next) with
  | some sourcePc =>
      if jsTruthy st.currentFunction && jsTruthy st.currentFile then
        match st.currentFile, st.currentFunction with
        | some f, some fn =>
            match jsGet st.filesData f with
            | none => .error JsError.typeError
            | some fe =>
                match jsGet fe.functions fn with
                | none => .error JsError.typeError
                | some fd =>
                    let calls1 := fd.calls.getD [] ++
                      [⟨st.pendingCallFile, st.pendingCallFunction, callCount, sourcePc⟩]
                    let fd1 := { fd with calls := some calls1 }
                    let funcs1 := jsSet fe.functions fn fd1
                    let fe1 := { fe with functions := funcs1 }
                    let st1 := { st with filesData := jsSet st.filesData f fe1, pendingCallFile := none, pendingCallFunction := none }
                    .ok st1
        | _, _ => .ok st
      else .ok st
  | none => .ok st

/-- Object built by assigning count idx to key events idx in order. -/
def mkEventsMap (events : List Str) (counts : List JsNum) : List (Str × JsNum) :=
  (events.zip counts).foldl (fun m p => jsSet m p.1 p.2) []

/-- Fold modelling totals event-indexed += count: an absent key reads as
undefined, and undefined + count is NaN. -/
def addTotals (totals : List (Str × JsNum)) (pairs : List (Str × JsNum)) : List (Str × JsNum) :=
  pairs.foldl (fun m p => jsSet m p.1 (jsAdd ((jsGet m p.1).getD none) p.2)) totals

/-- Fold modelling the per-line aggregation assignment
existing event-entry = (existing or 0) + count. -/
def aggEvents (base : List (Str × JsNum)) (pairs : List (Str × JsNum)) : List (Str × JsNum) :=
  pairs.foldl (fun m p => jsSet m p.1 (jsAdd (some (jsOrZero (jsGet m p.1))) p.2)) base

/-- The data-row branch (both the callgrind instruction-level sub-branch and
the line-only sub-branch), entered when the current file and function are both
truthy.  A failed lookup of the function record corresponds to the TypeError
that the try block catches before any mutation: the row is skipped.  The
boolean is cleanliness instrumentation: a duplicate-free vocabulary, integer
counts, and (line-only mode) no overwrite of an existing line record. -/
def applyDataRow (st : ParserState) (f fn : Str) (t : Str) : ParserState × Bool :=
  let parts := jsSplitWs t
  if st.isCallgrind && containsSub "instr".data st.positions then
    if startsWithStr "0x".data (parts.getD 0 []) && decide (3 ≤ parts.length) then
      match jsGet st.filesData f with
      | none => (st, true)
      | some fe =>
        match jsGet fe.functions fn with
        | none => (st, true)
        | some fd =>
          let pc := parts.getD 0 []
          let lineNum := jsParseInt (parts.getD 1 [])
          let provided := (parts.drop 2).map jsParseInt
          let eventCounts := st.events.mapIdx
            (fun idx _ => if idx < provided.length then provided.getD idx none else some 0)
          let executed := eventCounts.any jsGtZero
          let pcRec : PcLineData := ⟨pc, lineNum, mkEventsMap st.events eventCounts, executed⟩
          let lines0 :=
            match jsGet fd.lines lineNum with
            | none => jsSet fd.lines lineNum ⟨[], false⟩
            | some _ => fd.lines
          let ld0 := (jsGet lines0 lineNum).getD ⟨[], false⟩
          let ld1 : LineData := ⟨aggEvents ld0.events (st.events.zip eventCounts), ld0.executed || executed⟩
          let lines1 := jsSet lines0 lineNum ld1
          let pcData1 :=
            match fd.pcData with
            | some pd => some (jsSet pd pc pcRec)
            | none => none
          let totals1 := addTotals fd.totals (st.events.zip eventCounts)
          let fd1 := { fd with lines := lines1, pcData := pcData1, totals := totals1 }
          let fe1 := { fe with functions := jsSet fe.functions fn fd1 }
          ({ st with filesData := jsSet st.filesData f fe1 },
           decide st.events.Nodup && eventCounts.all Option.isSome)
    else (st, true)
  else
    if decide (st.events.length + 1 ≤ parts.length) then
      match jsGet st.filesData f with
      | none => (st, true)
      | some fe =>
        match jsGet fe.functions fn with
        | none => (st, true)
        | some fd =>
          let lineNum := jsParseInt (parts.getD 0 [])
          let eventCounts := ((parts.drop 1).take st.events.length).map jsParseInt
          let ld : LineData := ⟨mkEventsMap st.events eventCounts, eventCounts.any jsGtZero⟩
          let fresh := (jsGet fd.lines lineNum).isNone
          let lines1 := jsSet fd.lines lineNum ld
          let totals1 := addTotals fd.totals (st.events.zip eventCounts)
          let fd1 := { fd with lines := lines1, totals := totals1 }
          let fe1 := { fe with functions := jsSet fe.functions fn fd1 }
          ({ st with filesData := jsSet st.filesData f fe1 },
           decide st.events.Nodup && eventCounts.all Option.isSome && fresh)
    else (st, true)

/-- One trimmed line, for every branch that consumes a single line; the
branches are tested in the order of the source.  The calls= and jcnd=/jump=
branches, which can consume a second line, are dispatched by runC before this
function; their prefixes are disjoint from every prefix tested here, so the
order of the source is preserved. -/
def processLine (st : ParserState) (t : Str) : Except JsError (ParserState × Bool) :=
  if startsWithStr "events:".data t then .ok (applyEvents st t)
  else if startsWithStr "cmd:".data t then .ok ({ st with cmd := jsTrim (colonField1 t) }, true)
  else if startsWithStr "pid:".data t then .ok ({ st with pid := jsTrim (colonField1 t) }, true)
  else if startsWithStr "positions:".data t then .ok ({ st with positions := jsTrim (colonField1 t) }, true)
  else if startsWithStr "part:".data t then .ok (st, true)
  else if startsWithStr "ob=".data t then .ok ({ st with currentObjectFile := some (t.drop 3) }, true)
  else if startsWithStr "cob=".data t then .ok (st, true)
  else if startsWithStr "fl=".data t then .ok (applyFl st t, true)
  else if startsWithStr "fi=".data t || startsWithStr "fe=".data t then .ok (st, true)
  else if startsWithStr "fn=".data t then applyFn st t
  else if startsWithStr "cfi=".data t then .ok ({ st with pendingCallFile := some (t.drop 4) }, true)
  else if startsWithStr "cfn=".data t then .ok ({ st with pendingCallFunction := some (t.drop 4) }, true)
  else if startsWithStr "jfi=".data t then .ok (st, true)
  else if startsWithStr "summary:".data t then .ok (applySummary st t, true)
  else
    match st.currentFile, st.currentFunction with
    | some f, some fn =>
        if !f.isEmpty && !fn.isEmpty then .ok (applyDataRow st f fn t) else .ok (st, true)
    | _, _ => .ok (st, true)

/-- The main loop over the lines of the input, carrying the state and the
cleanliness flag.  Empty lines, and comment lines outside callgrind mode, are
skipped; calls= consumes the following line unconditionally when one exists;
jcnd=/jump= consume the following line when it starts with a PC.  The fuel
argument only makes the recursion structural: every step consumes at least one
line, so parse passes the line count and the fuel never runs out. -/
def runC (st : ParserState) (clean : Bool) : Nat → List Str → Except JsError (ParserState × Bool)
  | _, [] => .ok (st, clean)
  | 0, _ :: _ => .ok (st, clean)
  | fuel + 1, line :: rest =>
      let t := jsTrim line
      if t.isEmpty || (startsWithStr "#".data t && !st.isCallgrind) then runC st clean fuel rest
      else if startsWithStr "calls=".data t then
        match rest with
        | [] => runC st clean fuel []
        | next :: rest2 =>
            match applyCalls st t next with
            | .error e => .error e
            | .ok st1 => runC st1 clean fuel rest2
      else if startsWithStr "jcnd=".data t || startsWithStr "jump=".data t then
        match rest with
        | next :: rest2 =>
            if startsWithPc (jsTrim next) then runC st clean fuel rest2
            else runC st clean fuel rest
        | [] => runC st clean fuel []
      else
        match processLine st t with
        | .error e => .error e
        | .ok (st1, ok1) => runC st1 (clean && ok1) fuel rest

end CachegrindParser

/-! Post-processing (the second half of parse): per-file and per-function
coverage statistics, leaving lines, totals, pcData and calls untouched.
The source resolver is consulted with no source-file map, in which case
resolveSourcePath of path-utils.ts misses every probe and returns null, so
the source-code dependent fields take their fallback values. -/

structure FileCoverage where
  sourceFilePath : Str
  totalLines : JsNum
  compiledLines : Nat
  coveredLines : Nat
  coveragePercentage : ℚ
  coveredLineNumbers : List JsNum
  uncoveredLineNumbers : List JsNum
  sourceCode : Str
  functions : List (Str × FunctionData)
  cachegrindEvents : List Str
  objectFile : Option Str
deriving Repr, DecidableEq

structure CachegrindData where
  projectName : Str
  analysisType : Str
  pid : Str
  events : List Str
  totalLines : Nat
  coveredLines : Nat
  coveragePercentage : ℚ
  filesAnalyzed : Nat
  fileCoverage : List (Str × FileCoverage)
  summaryTotals : List (Str × JsNum)
  cachegrindFile : Str
  isCallgrind : Bool
deriving Repr, DecidableEq

namespace CachegrindParser

/-- Object.entries on the line map: JS enumerates integer-index-like keys
first in ascending numeric order, then the remaining keys (negative, NaN) in
insertion order. -/
def linesEntries (lines : List (JsNum × LineData)) : List (JsNum × LineData) :=
  let isIdx : JsNum × LineData → Bool := fun p =>
    match p.1 with
    | some n => decide (0 ≤ n ∧ n < 4294967295)
    | none => false
  let le : JsNum × LineData → JsNum × LineData → Bool := fun p q =>
    match p.1, q.1 with
    | some a, some b => decide (a ≤ b)
    | _, _ => true
  (lines.filter isIdx).mergeSort le ++ lines.filter (fun p => !isIdx p)

/-- Comparator-based sort of the covered and uncovered line-number arrays
(ascending; the NaN comparator case is unspecified in JS and irrelevant to
every claim). -/
def sortNums (l : List JsNum) : List JsNum :=
  l.mergeSort (fun a b =>
    match a, b with
    | some x, some y => decide (x ≤ y)
    | _, _ => true)

structure LineScan where
  covered : List JsNum
  uncovered : List JsNum
  maxLine : JsNum
  funcCovered : List JsNum
  funcUncovered : List JsNum

/-- The inner loop over one function's line entries: file-level covered and
uncovered sets, running maximum line, and the per-function pushed arrays. -/
def collectLines (acc : LineScan) : List (JsNum × LineData) → LineScan
  | [] => acc
  | (k, ld) :: rest =>
      let m := jsMax acc.maxLine k
      if ld.executed then
        collectLines ⟨jsSetAdd acc.covered k, acc.uncovered, m, acc.funcCovered ++ [k], acc.funcUncovered⟩ rest
      else
        collectLines ⟨acc.covered, jsSetAdd acc.uncovered k, m, acc.funcCovered, acc.funcUncovered ++ [k]⟩ rest

structure FileScan where
  covered : List JsNum
  uncovered : List JsNum
  maxLine : JsNum
  functions : List (Str × FunctionData)

/-- The middle loop over one file's functions, filling each function's
coverage fields. -/
def postFunctions (acc : FileScan) : List (Str × FunctionData) → FileScan
  | [] => acc
  | (fname, fd) :: rest =>
      let s := collectLines ⟨acc.covered, acc.uncovered, acc.maxLine, [], []⟩ (linesEntries fd.lines)
      let nCov := s.funcCovered.length
      let nUnc := s.funcUncovered.length
      let pct : ℚ := if 0 < nCov + nUnc then ((nCov : ℚ) / ((nCov : ℚ) + (nUnc : ℚ))) * 100 else 0
      let fd1 := { fd with coveredLines := s.funcCovered, uncoveredLines := s.funcUncovered, coveragePercentage := pct }
      postFunctions ⟨s.covered, s.uncovered, s.maxLine, acc.functions ++ [(fname, fd1)]⟩ rest

/-- One file of the outer post-processing loop. -/
def postStep (events : List Str) (acc : List (Str × FileCoverage) × Nat × Nat)
    (p : Str × FileEntry) : List (Str × FileCoverage) × Nat × Nat :=
  let fs := postFunctions ⟨[], [], some 0, []⟩ p.2.functions
  let compiledLineCount := fs.covered.length + fs.uncovered.length
  let coveredCount := fs.covered.length
  let pct : ℚ := if 0 < compiledLineCount then ((coveredCount : ℚ) / (compiledLineCount : ℚ)) * 100 else 0
  let fcov : FileCoverage :=
    { sourceFilePath := p.1,
      totalLines := fs.maxLine,
      compiledLines := compiledLineCount,
      coveredLines := coveredCount,
      coveragePercentage := pct,
      coveredLineNumbers := sortNums fs.covered,
      uncoveredLineNumbers := sortNums fs.uncovered,
      sourceCode := "Source code not available".data,
      functions := fs.functions,
      cachegrindEvents := events,
      objectFile := p.2.objectFile }
  (acc.1 ++ [(p.1, fcov)], acc.2.1 + compiledLineCount, acc.2.2 + coveredCount)

/-- The outer post-processing loop over files, and assembly of the result. -/
def postProcess (st : ParserState) : CachegrindData :=
  let r := st.filesData.foldl (postStep st.events) ([], 0, 0)
  { projectName := jsOrStr (some st.cmd) "Unknown".data,
    analysisType := if st.isCallgrind then "callgrind".data else "cachegrind".data,
    pid := st.pid,
    events := st.events,
    totalLines := r.2.1,
    coveredLines := r.2.2,
    coveragePercentage := if 0 < r.2.1 then ((r.2.2 : ℚ) / (r.2.1 : ℚ)) * 100 else 0,
    filesAnalyzed := r.1.length,
    fileCoverage := r.1,
    summaryTotals := st.summary,
    cachegrindFile := [],
    isCallgrind := st.isCallgrind }

/-- CachegrindParser.parse, for a parser constructed without a source-file
map.  The only way it can fail is the uncaught TypeError of the calls=
branch; there is no other abort path and no vocabulary check. -/
def parse (content : String) : Except JsError CachegrindData :=
  let lines := splitOnChar '\n' content.data
  let isCg := decide (jsTrim (lines.headD []) = "# callgrind format".data)
  match runC (initState isCg) true lines.length lines with
  | .error e => .error e
  | .ok (st, _) => .ok (postProcess st)

/-- Aggregation-cleanliness of a parse run (instrumentation, not part of the
source): true when the vocabulary was never changed after a function record
existed, was duplicate-free whenever used, every consumed count field parsed
to an integer, and no line-only data row overwrote an existing line record. -/
def aggClean (content : String) : Bool :=
  let lines := splitOnChar '\n' content.data
  let isCg := decide (jsTrim (lines.headD []) = "# callgrind format".data)
  match runC (initState isCg) true lines.length lines with
  | .error _ => false
  | .ok (_, clean) => clean

end CachegrindParser

/-! Call-tree construction, from profiler_web_prj/components/call-tree-viewer.tsx
(the createNode helper and the recursive buildTreeFromNode). -/

/-- The CallTreeNode interface of the profiler types.  Children are nested
nodes; in JS nodes are compared by reference, here by structure (every node
built by the viewer carries a unique id, so the two notions agree on them). -/
inductive CallTreeNode where
  | mk (id functionName fileName pcStart pcEnd : Str)
       (callCount totalTime selfTime : Int)
       (children : List CallTreeNode)
       (calls : Option (List CallInfo))

namespace CallTreeNode

def id : CallTreeNode → Str | .mk i _ _ _ _ _ _ _ _ _ => i
def functionName : CallTreeNode → Str | .mk _ n _ _ _ _ _ _ _ _ => n
def fileName : CallTreeNode → Str | .mk _ _ f _ _ _ _ _ _ _ => f
def pcStart : CallTreeNode → Str | .mk _ _ _ ps _ _ _ _ _ _ => ps
def pcEnd : CallTreeNode → Str | .mk _ _ _ _ pe _ _ _ _ _ => pe
def callCount : CallTreeNode → Int | .mk _ _ _ _ _ c _ _ _ _ => c
def totalTime : CallTreeNode → Int | .mk _ _ _ _ _ _ t _ _ _ => t
def selfTime : CallTreeNode → Int | .mk _ _ _ _ _ _ _ s _ _ => s
def children : CallTreeNode → List CallTreeNode | .mk _ _ _ _ _ _ _ _ ch _ => ch
def calls : CallTreeNode → Option (List CallInfo) | .mk _ _ _ _ _ _ _ _ _ ca => ca

def withChildren : CallTreeNode → List CallTreeNode → CallTreeNode
  | .mk i n f ps pe c t s _ ca, ch => .mk i n f ps pe c t s ch ca

def withCallCount : CallTreeNode → Int → CallTreeNode
  | .mk i n f ps pe _ t s ch ca, c => .mk i n f ps pe c t s ch ca

mutual

def beq : CallTreeNode → CallTreeNode → Bool
  | .mk i1 n1 f1 ps1 pe1 c1 t1 s1 ch1 ca1, .mk i2 n2 f2 ps2 pe2 c2 t2 s2 ch2 ca2 =>
      decide (i1 = i2) && decide (n1 = n2) && decide (f1 = f2) && decide (ps1 = ps2) &&
      decide (pe1 = pe2) && decide (c1 = c2) && decide (t1 = t2) && decide (s1 = s2) &&
      beqList ch1 ch2 && decide (ca1 = ca2)

def beqList : List CallTreeNode → List CallTreeNode → Bool
  | [], [] => true
  | a :: as, b :: bs => beq a b && beqList as bs
  | _, _ => false

end

mutual

theorem beq_iff : ∀ a b : CallTreeNode, beq a b = true ↔ a = b
  | .mk i1 n1 f1 ps1 pe1 c1 t1 s1 ch1 ca1, .mk i2 n2 f2 ps2 pe2 c2 t2 s2 ch2 ca2 => by
      simp [beq, beqList_iff ch1 ch2]
      tauto

theorem beqList_iff : ∀ a b : List CallTreeNode, beqList a b = true ↔ a = b
  | [], [] => by simp [beqList]
  | a :: as, b :: bs => by simp [beqList, beq_iff a b, beqList_iff as bs]
  | [], _ :: _ => by simp [beqList]
  | _ :: _, [] => by simp [beqList]

end

instance instDecEq : DecidableEq CallTreeNode := fun a b =>
  decidable_of_iff (beq a b = true) (beq_iff a b)

end CallTreeNode

namespace CallTreeViewer

def digitChar (n : Nat) : Char := Char.ofNat (48 + n)

def natToStrAux : Nat → Nat → Str
  | 0, _ => []
  | fuel + 1, n => if n < 10 then [digitChar n] else natToStrAux fuel (n / 10) ++ [digitChar (n % 10)]

/-- Decimal rendering of the running node id counter. -/
def natToStr (n : Nat) : Str := natToStrAux (n + 1) n

/-- The chain totals Cy or totals Ir or 0: first truthy value (undefined, NaN
and 0 are falsy). -/
def pickTruthy (v : Option JsNum) : Option Int :=
  match v with
  | some (some n) => if n = 0 then none else some n
  | _ => none

def orChainCyIr (cy ir : Option JsNum) : Int :=
  ((pickTruthy cy).getD ((pickTruthy ir).getD 0))

/-- createNode of call-tree-viewer.tsx: pcStart and pcEnd are the first and
last key of the pcData object (insertion order), empty strings when there are
none; self time prefers a truthy Cy total, then a truthy Ir total, then 0. -/
def createNode (nid : Nat) (fileName funcName : Str) (funcData : FunctionData) : CallTreeNode :=
  let pcAddresses := (funcData.pcData.getD []).map Prod.fst
  let selfCycles := orChainCyIr (jsGet funcData.totals "Cy".data) (jsGet funcData.totals "Ir".data)
  .mk ("node-".data ++ natToStr nid) funcName fileName
    (jsOrStr (pcAddresses.get? 0) []) (jsOrStr (pcAddresses.get? (pcAddresses.length - 1)) [])
    1 selfCycles selfCycles [] funcData.calls

/-- An entry of the viewer's functionMap. -/
structure FuncInfo where
  fileName : Str
  funcName : Str
  funcData : FunctionData
deriving DecidableEq

/-- The functionMap built over all files and functions, keyed filename colon
funcName, in first-appearance order. -/
def buildFunctionMap (data : CachegrindData) : List (Str × FuncInfo) :=
  data.fileCoverage.foldl (fun fm p =>
    p.2.functions.foldl (fun fm2 q =>
      jsSet fm2 (p.1 ++ [':'] ++ q.1) ⟨p.1, q.1, q.2⟩) fm) []

/-- The forEach over funcData.calls inside buildTreeFromNode: recur is the
recursive tree builder at the remaining fuel.  The triple carried through is
(children so far, next node id, expansion count); repeats and unknown targets
become stub leaves. -/
def buildChildren
    (recur : Str → List Str → Nat → Option CallTreeNode × Nat × Nat)
    (fileName : Str) (visited : List Str) :
    List CallInfo → Nat → List CallTreeNode × Nat × Nat
  | [], nid => ([], nid, 0)
  | call :: rest, nid =>
      match call.targetFunction with
      | some tfn =>
          if tfn.isEmpty then buildChildren recur fileName visited rest nid
          else
            let targetFile := jsOrStr call.targetFile fileName
            let childKey := targetFile ++ [':'] ++ tfn
            let r := recur childKey visited nid
            let cc : Int := if call.count = 0 then 1 else call.count
            match r.1 with
            | some childNode =>
                let r2 := buildChildren recur fileName visited rest r.2.1
                (childNode.withCallCount cc :: r2.1, r2.2.1, r.2.2 + r2.2.2)
            | none =>
                let stub : CallTreeNode :=
                  .mk ("stub-".data ++ natToStr r.2.1) tfn targetFile [] [] cc 0 0 [] none
                let r2 := buildChildren recur fileName visited rest (r.2.1 + 1)
                (stub :: r2.1, r2.2.1, r.2.2 + r2.2.2)
      | none => buildChildren recur fileName visited rest nid

/-- buildTreeFromNode of call-tree-viewer.tsx.  Every child call receives a
copy of the visited set of its parent (new Set(visited) in the source), so the
set is path-local: a repeat along the current path yields null (the caller
then pushes a stub leaf), but a node reached along two separate paths is
expanded twice.  The result triple is (tree, next node id, number of
expansions); the fuel only makes the recursion structural and is irrelevant
from lengthOfUnvisited + 1 upward (proved below). -/
def buildTreeFromNode (fm : List (Str × FuncInfo)) :
    Nat → Str → List Str → Nat → Option CallTreeNode × Nat × Nat
  | 0, _, _, nid => (none, nid, 0)
  | fuel + 1, key, visited, nid =>
      if key ∈ visited then (none, nid, 0)
      else
        match jsGet fm key with
        | none => (none, nid, 0)
        | some fi =>
            let visited1 := key :: visited
            let node0 := createNode nid fi.fileName fi.funcName fi.funcData
            let r := buildChildren (buildTreeFromNode fm fuel) fi.fileName visited1
              (fi.funcData.calls.getD []) (nid + 1)
            (some (node0.withChildren r.1), r.2.1, 1 + r.2.2)

/-- The number of distinct functionMap keys outside the visited set: the bound
on the recursion depth of buildTreeFromNode. -/
def lengthOfUnvisited (fm : List (Str × FuncInfo)) (visited : List Str) : Nat :=
  (((fm.map Prod.fst).dedup).filter (fun k => !(k ∈ visited : Bool))).length

end CallTreeViewer

/-! The search engine of lib/call-tree-search.ts (class CallTreeSearchEngine).
JS Sets of nodes are insertion-ordered duplicate-free lists. -/

namespace CallTreeSearchEngine

structure SearchIndex where
  termToNodes : List (Str × List CallTreeNode)
  nodeToTerms : List (CallTreeNode × List Str)

def emptyIndex : SearchIndex := ⟨[], []⟩

def addToIndex (idx : SearchIndex) (term : Str) (node : CallTreeNode) : SearchIndex :=
  { termToNodes := jsSet idx.termToNodes term (jsSetAdd ((jsGet idx.termToNodes term).getD []) node),
    nodeToTerms := jsSet idx.nodeToTerms node (jsSetAdd ((jsGet idx.nodeToTerms node).getD []) term) }

def isLowerAlpha (c : Char) : Bool := 'a' ≤ c && c ≤ 'z'
def isUpperAlpha (c : Char) : Bool := 'A' ≤ c && c ≤ 'Z'
def isAlphaNum (c : Char) : Bool := isLowerAlpha c || isUpperAlpha c || ('0' ≤ c && c ≤ '9')

/-- The camelCase regex replace: a space is inserted between a lowercase
letter and the uppercase letter that follows it (the matched pair is consumed,
as the global regex resumes after the match). -/
def camelSpace : Str → Str
  | [] => []
  | [c] => [c]
  | c1 :: c2 :: rest =>
      if isLowerAlpha c1 && isUpperAlpha c2 then c1 :: ' ' :: c2 :: camelSpace rest
      else c1 :: camelSpace (c2 :: rest)

/-- The word list of a function name: camelCase split, underscores to spaces,
split on non-alphanumeric runs, words of length at least 2. -/
def wordsOf (name : Str) : List Str :=
  (regexSplit (fun c => !isAlphaNum c)
      ((camelSpace name).map (fun c => if c = '_' then ' ' else c))).filter
    (fun w => decide (1 < w.length))

/-- All terms indexed for one node, in the order of the source: the full
lowercase name, the lowercased words, prefixes of length 1 to min(n, 12),
suffixes of length 3 to min(n, 8) when n exceeds 3, and for short names
(n at most 8) internal substrings of length 2 to 4. -/
def indexTerms (name : Str) : List Str :=
  let lower := strLower name
  let n := lower.length
  let prefixes := (List.range' 1 (min n 12)).map (fun len => lower.take len)
  let suffixes :=
    if 3 < n then (List.range' 3 (min n 8 - 2)).map (fun len => lower.drop (n - len)) else []
  let middles :=
    if n ≤ 8 then
      (List.range' 1 (n - 2)).flatMap (fun start =>
        (List.range' 2 (min 4 (n - start) - 1)).map (fun len => (lower.drop start).take len))
    else []
  [lower] ++ (wordsOf name).map strLower ++ prefixes ++ suffixes ++ middles

def indexChildrenF
    (recur : CallTreeNode → (List Str × SearchIndex) → (List Str × SearchIndex)) :
    List CallTreeNode → (List Str × SearchIndex) → (List Str × SearchIndex)
  | [], s => s
  | c :: rest, s => indexChildrenF recur rest (recur c s)

/-- indexNode of buildIndex: a node already visited (by id) or beyond the
depth limit is skipped; otherwise all its terms are added (full name first)
and its children are indexed.  The fuel is 101 minus the depth, so fuel 0 is
the depth greater than 100 cutoff of the source. -/
def indexNodeF : Nat → CallTreeNode → (List Str × SearchIndex) → (List Str × SearchIndex)
  | 0, _, s => s
  | fuel + 1, node, s =>
      if node.id ∈ s.1 then s
      else
        let visited1 := node.id :: s.1
        let idx1 := (indexTerms node.functionName).foldl (fun i t => addToIndex i t node) s.2
        indexChildrenF (indexNodeF fuel) node.children (visited1, idx1)

/-- buildIndex over a node list (the viewer passes every node of the node
map); the visited set is shared across roots. -/
def buildIndex (nodes : List CallTreeNode) : SearchIndex :=
  (nodes.foldl (fun s n => indexNodeF 101 n s) ([], emptyIndex)).2

/-- search: empty or all-whitespace query gives the empty set; otherwise the
exact-term matches, widened by term-prefix matches while below 10 results and
then by term-substring matches while below 5 results. -/
def search (idx : SearchIndex) (searchTerm : Str) : List CallTreeNode :=
  if searchTerm.isEmpty || (jsTrim searchTerm).isEmpty then []
  else
    let termLower := jsTrim (strLower searchTerm)
    let results0 : List CallTreeNode :=
      match jsGet idx.termToNodes termLower with
      | some nodes => nodes.foldl jsSetAdd []
      | none => []
    let results1 : List CallTreeNode :=
      if results0.length < 10 then
        idx.termToNodes.foldl (fun res p =>
          if startsWithStr termLower p.1 then p.2.foldl jsSetAdd res else res) results0
      else results0
    let results2 : List CallTreeNode :=
      if results1.length < 5 then
        idx.termToNodes.foldl (fun res p =>
          if !startsWithStr termLower p.1 && containsSub termLower p.1 then
            p.2.foldl jsSetAdd res
          else res) results1
      else results1
    results2

end CallTreeSearchEngine

/-! The entry-point matcher of lib/entry-point-matcher.ts. -/

namespace EntryPointMatcher

/-- One entry of the sorted PC-range array; stop models the field named end
of the source (a reserved word here). -/
structure PcRange where
  start : Int
  stop : Int
  node : CallTreeNode
deriving DecidableEq

structure EntryPointIndex where
  byName : List (Str × CallTreeNode)
  byPcStart : List (Str × CallTreeNode)
  byPartialName : List (Str × List CallTreeNode)
  pcRanges : List PcRange

def isLowerNum (c : Char) : Bool := ('a' ≤ c && c ≤ 'z') || ('0' ≤ c && c ≤ '9')

def addPartial (m : List (Str × List CallTreeNode)) (term : Str) (node : CallTreeNode) :
    List (Str × List CallTreeNode) :=
  jsSet m term (jsSetAdd ((jsGet m term).getD []) node)

/-- The per-node body of buildIndex: full lowercase name (and the variant with
leading underscores stripped) into byName, name prefixes of length 3 to
min(n, 8) and word prefixes of length 3 to min(word, 6) into byPartialName,
a truthy pcStart into byPcStart, and a well-formed parsed PC range into the
range array. -/
def indexNode (acc : EntryPointIndex) (node : CallTreeNode) : EntryPointIndex :=
  let nameLower := strLower node.functionName
  let byName1 := jsSet acc.byName nameLower node
  let nameNoPrefix := strLower (node.functionName.dropWhile (fun c => c = '_'))
  let byName2 := if nameNoPrefix ≠ nameLower then jsSet byName1 nameNoPrefix node else byName1
  let n := nameLower.length
  let partial1 := (List.range' 3 (min n 8 - 2)).foldl
    (fun m len => addPartial m (nameLower.take len) node) acc.byPartialName
  let words := regexSplit (fun c => !isLowerNum c) nameLower
  let partial2 := words.foldl (fun m w =>
      if 3 ≤ w.length then
        (List.range' 3 (min w.length 6 - 2)).foldl
          (fun m2 len => addPartial m2 (w.take len) node) (addPartial m w node)
      else m) partial1
  let byPcStart1 :=
    if !node.pcStart.isEmpty then jsSet acc.byPcStart (strLower node.pcStart) node
    else acc.byPcStart
  let pcRanges1 :=
    if !node.pcStart.isEmpty && !node.pcEnd.isEmpty then
      match jsParseHex node.pcStart, jsParseHex node.pcEnd with
      | some s, some e => if s ≤ e then acc.pcRanges ++ [⟨s, e, node⟩] else acc.pcRanges
      | _, _ => acc.pcRanges
    else acc.pcRanges
  ⟨byName2, byPcStart1, partial2, pcRanges1⟩

/-- buildIndex over the node-map values (insertion order), ending with the
sort of the range array by start address.  The comparator a.start minus b.start
makes Array.sort a stable sort by start, which a stable insertion sort
reproduces exactly. -/
def buildIndex (nodes : List CallTreeNode) : EntryPointIndex :=
  let base := nodes.foldl indexNode ⟨[], [], [], []⟩
  { base with pcRanges := base.pcRanges.insertionSort (fun a b => a.start ≤ b.start) }

/-- The while loop of findByPcRange; left stays nonnegative so the midpoint
truncated division agrees with Math.floor.  The fuel only bounds the loop
(the interval shrinks every iteration, so length + 1 is always enough). -/
def findByPcRangeGo (ranges : List PcRange) (address : Int) :
    Nat → Int → Int → Option CallTreeNode
  | 0, _, _ => none
  | fuel + 1, left, right =>
      if left ≤ right then
        let mid := (left + right) / 2
        match ranges.get? mid.toNat with
        | none => none
        | some r =>
            if r.start ≤ address ∧ address ≤ r.stop then some r.node
            else if address < r.start then findByPcRangeGo ranges address fuel left (mid - 1)
            else findByPcRangeGo ranges address fuel (mid + 1) right
      else none

def findByPcRange (idx : EntryPointIndex) (address : Int) : Option CallTreeNode :=
  findByPcRangeGo idx.pcRanges address (idx.pcRanges.length + 1) 0 (idx.pcRanges.length - 1)

/-- Step 3 of findEntryNode: for queries of length at least 3, a partial-name
hit returns the first member of the set, else the first name starting with the
query; shorter queries give null. -/
def partialStep (idx : EntryPointIndex) (trimmedLower : Str) : Option CallTreeNode :=
  if 3 ≤ trimmedLower.length then
    let fallback := (idx.byName.find? (fun p => startsWithStr trimmedLower p.1)).map Prod.snd
    match jsGet idx.byPartialName trimmedLower with
    | some s => if 0 < s.length then s.head? else fallback
    | none => fallback
  else none

/-- findEntryNode: exact lowercase name first; then, for a hex-numeral query,
the exact pc-start map and else the binary range search, whose result
(found or null) is returned outright; the partial step runs only for queries
that are not hex numerals (or whose hex parse is NaN, which cannot happen for
a matching query). -/
def findEntryNode (idx : EntryPointIndex) (entryPoint : Str) : Option CallTreeNode :=
  if entryPoint.isEmpty then none
  else
    let trimmed := jsTrim entryPoint
    let trimmedLower := strLower trimmed
    match jsGet idx.byName trimmedLower with
    | some n => some n
    | none =>
        if isPcLike trimmed then
          let pcAddress := if startsWithStr "0x".data trimmed then trimmed else "0x".data ++ trimmed
          match jsGet idx.byPcStart (strLower pcAddress) with
          | some n => some n
          | none =>
              match jsParseHex pcAddress with
              | some addr => findByPcRange idx addr
              | none => partialStep idx trimmedLower
        else partialStep idx trimmedLower

end EntryPointMatcher

/-! Support definitions shared by the claim theorems. -/

/-- The function record of a parsed profile at a file path and function name. -/
def getFunction (d : CachegrindData) (file fn : String) : Option FunctionData :=
  match jsGet d.fileCoverage file.data with
  | some fc => jsGet fc.functions fn.data
  | none => none

/-- The count a line record carries for an event (0 when the event is absent
or NaN). -/
def lineEventVal (ld : LineData) (e : Str) : Int :=
  match jsGet ld.events e with
  | some (some n) => n
  | _ => 0

/-- The sum over all line records of a function of their counts for an event. -/
def sumLineEvents (fd : FunctionData) (e : Str) : Int :=
  (fd.lines.map (fun p => lineEventVal p.2 e)).sum

def exceptIsOk {ε α : Type} : Except ε α → Bool
  | .ok _ => true
  | .error _ => false

/-- The function record a parse produces, or none when the parse fails or the
record is absent. -/
def parsedFunction (content : String) (file fn : String) : Option FunctionData :=
  match CachegrindParser.parse content with
  | .ok d => getFunction d file fn
  | .error _ => none

/-! Concrete inputs of the claims. -/

def c1Input : String := "fl=a.c\nfn=f\n5 7"

def c2Input : String := "fl=a.c\nfn=f\nfl=b.c\ncalls=1 0\n0x0 1"

def c3Input : String := "events: Ir\nfl=a.c\nfn=f\n5 3\n5 4"

def c4Input : String :=
  "# callgrind format\nevents: Ir Cy\npositions: instr line\nfl=a.c\nfn=f\n0x1000 10 2 3\n0x1004 10 4 5\ncfi=b.c\ncfn=h\ncalls=3 0x2000\n0x2000 20 12 0\nsummary: 6 8"

def c5Input : String :=
  "# callgrind format\nevents: Ir\npositions: instr line\nfl=a.c\nfn=f\n0x1000 10 2\n0x1000 10 3"

example : (CachegrindParser.parse c1Input).toOption.map (fun d => d.events) = some [] := by decide
example : exceptIsOk (CachegrindParser.parse c2Input) = false := by decide


/-! Events-vocabulary preservation: only the events: branch ever writes the
vocabulary. -/

namespace CachegrindParser

theorem applyFl_events (st : ParserState) (t : Str) : (applyFl st t).events = st.events := by
  unfold applyFl
  dsimp only

theorem applyFn_events (st : ParserState) (t : Str) (st1 : ParserState) (b : Bool)
    (h : applyFn st t = .ok (st1, b)) : st1.events = st.events := by
  unfold applyFn at h
  dsimp only at h
  repeat' split at h
  all_goals first
    | (exact Except.noConfusion h)
    | (subst h; rfl)
    | (obtain ⟨h1, h2⟩ := h; subst h1; rfl)
    | (simp only [Except.ok.injEq, Prod.mk.injEq] at h
       first
         | (subst h; rfl)
         | (obtain ⟨h1, h2⟩ := h; subst h1; rfl))

theorem applySummary_events (st : ParserState) (t : Str) :
    (applySummary st t).events = st.events := rfl

theorem applyCalls_events (st : ParserState) (t next : Str) (st1 : ParserState)
    (h : applyCalls st t next = .ok st1) : st1.events = st.events := by
  unfold applyCalls at h
  dsimp only at h
  repeat' split at h
  all_goals first
    | (exact Except.noConfusion h)
    | (subst h; rfl)
    | (obtain ⟨h1, h2⟩ := h; subst h1; rfl)
    | (simp only [Except.ok.injEq, Prod.mk.injEq] at h
       first
         | (subst h; rfl)
         | (obtain ⟨h1, h2⟩ := h; subst h1; rfl))

set_option maxHeartbeats 1000000 in
theorem applyDataRow_events (st : ParserState) (f fn t : Str) :
    ((applyDataRow st f fn t).1).events = st.events := by
  unfold applyDataRow
  dsimp only
  repeat' split
  all_goals rfl

theorem processLine_events (st : ParserState) (t : Str) (st1 : ParserState) (b : Bool)
    (hne : ¬ startsWithStr "events:".data t = true)
    (h : processLine st t = .ok (st1, b)) : st1.events = st.events := by
  unfold processLine at h
  rw [if_neg hne] at h
  by_cases hb1 : startsWithStr "cmd:".data t = true
  · rw [if_pos hb1] at h
    first
      | (exact applyFn_events st t st1 b h)
      | (simp only [Except.ok.injEq, Prod.mk.injEq] at h
         obtain ⟨hx, hy⟩ := h
         subst hx
         first
           | rfl
           | exact applyFl_events st t
           | exact applySummary_events st t)
  rw [if_neg hb1] at h
  by_cases hb2 : startsWithStr "pid:".data t = true
  · rw [if_pos hb2] at h
    first
      | (exact applyFn_events st t st1 b h)
      | (simp only [Except.ok.injEq, Prod.mk.injEq] at h
         obtain ⟨hx, hy⟩ := h
         subst hx
         first
           | rfl
           | exact applyFl_events st t
           | exact applySummary_events st t)
  rw [if_neg hb2] at h
  by_cases hb3 : startsWithStr "positions:".data t = true
  · rw [if_pos hb3] at h
    first
      | (exact applyFn_events st t st1 b h)
      | (simp only [Except.ok.injEq, Prod.mk.injEq] at h
         obtain ⟨hx, hy⟩ := h
         subst hx
         first
           | rfl
           | exact applyFl_events st t
           | exact applySummary_events st t)
  rw [if_neg hb3] at h
  by_cases hb4 : startsWithStr "part:".data t = true
  · rw [if_pos hb4] at h
    first
      | (exact applyFn_events st t st1 b h)
      | (simp only [Except.ok.injEq, Prod.mk.injEq] at h
         obtain ⟨hx, hy⟩ := h
         subst hx
         first
           | rfl
           | exact applyFl_events st t
           | exact applySummary_events st t)
  rw [if_neg hb4] at h
  by_cases hb5 : startsWithStr "ob=".data t = true
  · rw [if_pos hb5] at h
    first
      | (exact applyFn_events st t st1 b h)
      | (simp only [Except.ok.injEq, Prod.mk.injEq] at h
         obtain ⟨hx, hy⟩ := h
         subst hx
         first
           | rfl
           | exact applyFl_events st t
           | exact applySummary_events st t)
  rw [if_neg hb5] at h
  by_cases hb6 : startsWithStr "cob=".data t = true
  · rw [if_pos hb6] at h
    first
      | (exact applyFn_events st t st1 b h)
      | (simp only [Except.ok.injEq, Prod.mk.injEq] at h
         obtain ⟨hx, hy⟩ := h
         subst hx
         first
           | rfl
           | exact applyFl_events st t
           | exact applySummary_events st t)
  rw [if_neg hb6] at h
  by_cases hb7 : startsWithStr "fl=".data t = true
  · rw [if_pos hb7] at h
    first
      | (exact applyFn_events st t st1 b h)
      | (simp only [Except.ok.injEq, Prod.mk.injEq] at h
         obtain ⟨hx, hy⟩ := h
         subst hx
         first
           | rfl
           | exact applyFl_events st t
           | exact applySummary_events st t)
  rw [if_neg hb7] at h
  by_cases hb8 : (startsWithStr "fi=".data t || startsWithStr "fe=".data t) = true
  · rw [if_pos hb8] at h
    first
      | (exact applyFn_events st t st1 b h)
      | (simp only [Except.ok.injEq, Prod.mk.injEq] at h
         obtain ⟨hx, hy⟩ := h
         subst hx
         first
           | rfl
           | exact applyFl_events st t
           | exact applySummary_events st t)
  rw [if_neg hb8] at h
  by_cases hb9 : startsWithStr "fn=".data t = true
  · rw [if_pos hb9] at h
    first
      | (exact applyFn_events st t st1 b h)
      | (simp only [Except.ok.injEq, Prod.mk.injEq] at h
         obtain ⟨hx, hy⟩ := h
         subst hx
         first
           | rfl
           | exact applyFl_events st t
           | exact applySummary_events st t)
  rw [if_neg hb9] at h
  by_cases hb10 : startsWithStr "cfi=".data t = true
  · rw [if_pos hb10] at h
    first
      | (exact applyFn_events st t st1 b h)
      | (simp only [Except.ok.injEq, Prod.mk.injEq] at h
         obtain ⟨hx, hy⟩ := h
         subst hx
         first
           | rfl
           | exact applyFl_events st t
           | exact applySummary_events st t)
  rw [if_neg hb10] at h
  by_cases hb11 : startsWithStr "cfn=".data t = true
  · rw [if_pos hb11] at h
    first
      | (exact applyFn_events st t st1 b h)
      | (simp only [Except.ok.injEq, Prod.mk.injEq] at h
         obtain ⟨hx, hy⟩ := h
         subst hx
         first
           | rfl
           | exact applyFl_events st t
           | exact applySummary_events st t)
  rw [if_neg hb11] at h
  by_cases hb12 : startsWithStr "jfi=".data t = true
  · rw [if_pos hb12] at h
    first
      | (exact applyFn_events st t st1 b h)
      | (simp only [Except.ok.injEq, Prod.mk.injEq] at h
         obtain ⟨hx, hy⟩ := h
         subst hx
         first
           | rfl
           | exact applyFl_events st t
           | exact applySummary_events st t)
  rw [if_neg hb12] at h
  by_cases hb13 : startsWithStr "summary:".data t = true
  · rw [if_pos hb13] at h
    first
      | (exact applyFn_events st t st1 b h)
      | (simp only [Except.ok.injEq, Prod.mk.injEq] at h
         obtain ⟨hx, hy⟩ := h
         subst hx
         first
           | rfl
           | exact applyFl_events st t
           | exact applySummary_events st t)
  rw [if_neg hb13] at h
  split at h
  · split at h
    · simp only [Except.ok.injEq] at h
      have hfst : (applyDataRow st _ _ t).1 = st1 := congrArg Prod.fst h
      rw [← hfst]
      exact applyDataRow_events st _ _ t
    · simp only [Except.ok.injEq, Prod.mk.injEq] at h
      obtain ⟨hx, _⟩ := h
      subst hx
      rfl
  · simp only [Except.ok.injEq, Prod.mk.injEq] at h
    obtain ⟨hx, _⟩ := h
    subst hx
    rfl

theorem runC_events (fuel : Nat) (lines : List Str) (st : ParserState) (clean : Bool)
    (st1 : ParserState) (clean1 : Bool)
    (hnoev : ∀ l ∈ lines, ¬ startsWithStr "events:".data (jsTrim l) = true)
    (h : runC st clean fuel lines = .ok (st1, clean1)) : st1.events = st.events := by
  induction fuel generalizing st clean lines with
  | zero =>
      cases lines <;> simp only [runC, Except.ok.injEq, Prod.mk.injEq] at h <;>
        (obtain ⟨h1, _⟩ := h; subst h1; rfl)
  | succ fuel ih =>
      cases lines with
      | nil =>
          simp only [runC, Except.ok.injEq, Prod.mk.injEq] at h
          obtain ⟨h1, _⟩ := h
          subst h1
          rfl
      | cons line rest =>
          have hline := hnoev line (by simp)
          have hrest : ∀ l ∈ rest, ¬ startsWithStr "events:".data (jsTrim l) = true :=
            fun l hl => hnoev l (by simp [hl])
          rw [runC.eq_def] at h
          dsimp only at h
          split at h
          · exact ih rest st clean hrest h
          · split at h
            · split at h
              · refine ih _ st clean ?_ h
                intro l hl
                exact absurd hl (List.not_mem_nil l)
              · split at h
                · exact Except.noConfusion h
                · rename_i st2 happ
                  refine (ih _ st2 clean ?_ h).trans (applyCalls_events st _ _ st2 happ)
                  intro l hl
                  exact hnoev l (by simp [hl])
            · split at h
              · split at h
                · split at h
                  · refine ih _ st clean ?_ h
                    intro l hl
                    exact hnoev l (by simp [hl])
                  · refine ih _ st clean ?_ h
                    intro l hl
                    exact hnoev l (by simp [hl])
                · refine ih _ st clean ?_ h
                  intro l hl
                  exact absurd hl (List.not_mem_nil l)
              · split at h
                · exact Except.noConfusion h
                · rename_i st2 ok2 hpl
                  refine (ih _ st2 (clean && ok2) ?_ h).trans
                    (processLine_events st (jsTrim line) st2 ok2 hline hpl)
                  intro l hl
                  exact hnoev l (by simp [hl])

end CachegrindParser

/-- C1: the claim is false as stated: the parser defines no NoVocabulary error
and never aborts for a missing vocabulary.  On an input with a data row and no
events: header it returns a Profile; the consumed data row is recorded as a
line record with an empty event vector. -/
theorem C1_counterexample :
    exceptIsOk (CachegrindParser.parse c1Input) = true ∧
    (parsedFunction c1Input "a.c" "f").bind (fun fd => jsGet fd.lines (some 5)) =
      some ⟨[], false⟩ := by
  exact ⟨by decide, by decide⟩

/-- C1 (amended): parsing an input that has no events: header line does not
abort with a vocabulary error; whenever parse returns at all, the returned
Profile carries the empty vocabulary (data rows before an events: header are
consumed, not rejected). -/
theorem C1_no_vocabulary_never_aborts (content : String) (p : CachegrindData)
    (hnoev : ∀ l ∈ splitOnChar '\n' content.data,
      ¬ startsWithStr "events:".data (jsTrim l) = true)
    (hp : CachegrindParser.parse content = .ok p) :
    p.events = [] := by
  unfold CachegrindParser.parse at hp
  dsimp only at hp
  split at hp
  · exact Except.noConfusion hp
  · rename_i st flag hrun
    simp only [Except.ok.injEq] at hp
    subst hp
    have h1 := CachegrindParser.runC_events _ _ _ _ st flag hnoev hrun
    calc (CachegrindParser.postProcess st).events = st.events := rfl
      _ = [] := h1

/-- C1 witness: the amended theorem applied at the concrete no-vocabulary
input. -/
theorem C1_witness :
    (∀ l ∈ splitOnChar '\n' c1Input.data,
      ¬ startsWithStr "events:".data (jsTrim l) = true) ∧
    (CachegrindParser.parse c1Input).toOption.map (fun d => d.events) = some [] := by
  refine ⟨by decide, ?_⟩
  cases hp : CachegrindParser.parse c1Input with
  | ok p =>
      have h := C1_no_vocabulary_never_aborts c1Input p (by decide) hp
      simp [Except.toOption, h]
  | error e =>
      cases e
      have hok : exceptIsOk (CachegrindParser.parse c1Input) = true := by decide
      rw [hp] at hok
      exact absurd hok (by decide)

/-- C2: the claim that parse never raises an exception is contradicted by the
code: a calls= directive seen while the current function is not registered in
the current file dereferences an undefined record outside any try block, so
parse throws a TypeError.  The spec states the never-panic policy and every
data-row branch is guarded by try/catch, so the unguarded calls= branch is a
slip in the code. -/
theorem C2_parse_throws_on_stale_function :
    CachegrindParser.parse c2Input = .error JsError.typeError := by rfl

/-- C3: the claim fails on line-only (cachegrind) input that carries the same
line twice for one function: the second row replaces the line record while the
function totals accumulate both rows, so totals Ir is 7 while the lines sum to
4. -/
theorem C3_counterexample :
    (parsedFunction c3Input "a.c" "f").map (fun fd => jsGet fd.totals "Ir".data) =
      some (some (some 7)) ∧
    (parsedFunction c3Input "a.c" "f").map (fun fd => sumLineEvents fd "Ir".data) = some 4 ∧
    (7 : Int) ≠ 4 := by
  exact ⟨by decide, by decide, by decide⟩

/-- C4: the claim is false in its line-20 part: the data row following calls=
is consumed as the edge's source row and creates no line record, so line 20 of
a.c:f carries nothing (while the function record itself exists). -/
theorem C4_counterexample :
    (parsedFunction c4Input "a.c" "f").bind (fun fd => jsGet fd.lines (some 20)) = none ∧
    (parsedFunction c4Input "a.c" "f") ≠ none := by
  exact ⟨by decide, by decide⟩

/-- C4 (amended): in scenario 3 the function a.c:f carries exactly one
outgoing call edge, to file b.c and function h with count 3 and source PC
0x2000; the data row following calls= is consumed by the edge and creates no
record for line 20, while line 10 keeps Ir 6 from the two ordinary rows. -/
theorem C4_call_edge_attached_row_consumed :
    (parsedFunction c4Input "a.c" "f").map (fun fd => fd.calls) =
      some (some [⟨some "b.c".data, some "h".data, 3, "0x2000".data⟩]) ∧
    (parsedFunction c4Input "a.c" "f").bind (fun fd => jsGet fd.lines (some 20)) = none ∧
    (parsedFunction c4Input "a.c" "f").bind (fun fd =>
      (jsGet fd.lines (some 10)).map (fun ld => lineEventVal ld "Ir".data)) = some 6 := by
  exact ⟨by decide, by decide, by decide⟩

/-- C5: the claim fails: a second data row with the same PC replaces the
PcRecord instead of being summed; with rows of Ir 2 and Ir 3 the stored value
is 3, not 5 (the per-line aggregate does sum to 5). -/
theorem C5_counterexample :
    ((parsedFunction c5Input "a.c" "f").bind (fun fd => fd.pcData)).bind
      (fun pd => (jsGet pd "0x1000".data).map (fun r => jsGet r.events "Ir".data)) =
      some (some (some 3)) ∧
    (parsedFunction c5Input "a.c" "f").bind (fun fd =>
      (jsGet fd.lines (some 10)).map (fun ld => lineEventVal ld "Ir".data)) = some 5 ∧
    (3 : Int) ≠ 2 + 3 := by
  exact ⟨by decide, by decide, by decide⟩

namespace CachegrindParser

/-- The PcRecord an instruction-level data row produces, read off the row
alone: PC token, parsed line number, event map aligned with the vocabulary
(missing trailing columns zero), executed flag. -/
def instrRowRec (events : List Str) (parts : List Str) : PcLineData :=
  let provided := (parts.drop 2).map jsParseInt
  let eventCounts := events.mapIdx
    (fun idx _ => if idx < provided.length then provided.getD idx none else some 0)
  ⟨parts.getD 0 [], jsParseInt (parts.getD 1 []), mkEventsMap events eventCounts,
    eventCounts.any jsGtZero⟩

end CachegrindParser

/-- C5 (amended): a duplicate PC is not summed but replaced: after an
instruction-level data row for a registered function, the PcRecord stored at
the row's PC is exactly the record built from that row alone, whatever record
(if any) the map held for that PC before. -/
theorem C5_duplicate_pc_last_row_wins
    (st : ParserState) (f fn t : Str) (fe : FileEntry) (fd : FunctionData)
    (pd : List (Str × PcLineData))
    (hmode : (st.isCallgrind && containsSub "instr".data st.positions) = true)
    (hguard : (startsWithStr "0x".data ((jsSplitWs t).getD 0 []) &&
      decide (3 ≤ (jsSplitWs t).length)) = true)
    (hfe : jsGet st.filesData f = some fe)
    (hfd : jsGet fe.functions fn = some fd)
    (hpd : fd.pcData = some pd) :
    ((jsGet ((CachegrindParser.applyDataRow st f fn t).1).filesData f).bind
        (fun fe1 => jsGet fe1.functions fn)).bind
      (fun fd1 => fd1.pcData.bind (fun pd1 => jsGet pd1 ((jsSplitWs t).getD 0 []))) =
      some (CachegrindParser.instrRowRec st.events (jsSplitWs t)) := by
  unfold CachegrindParser.applyDataRow
  dsimp only
  rw [if_pos hmode, if_pos hguard, hfe]
  dsimp only
  rw [hfd]
  dsimp only
  rw [hpd]
  dsimp only
  rw [jsGet_jsSet_self]
  dsimp only [Option.bind]
  rw [jsGet_jsSet_self]
  dsimp only [Option.bind]
  rw [jsGet_jsSet_self]
  rfl

def c5Fd : FunctionData :=
  { lines := [], totals := [("Ir".data, some 2)], coveredLines := [], uncoveredLines := [],
    coveragePercentage := 0,
    pcData := some [("0x1000".data, ⟨"0x1000".data, some 10, [("Ir".data, some 2)], true⟩)],
    calls := none }

def c5Fe : FileEntry := { functions := [("f".data, c5Fd)], objectFile := none }

def c5St : ParserState :=
  { CachegrindParser.initState true with
      events := ["Ir".data], positions := "instr line".data,
      filesData := [("a.c".data, c5Fe)],
      currentFile := some "a.c".data, currentFunction := some "f".data }

/-- C5 witness: the amended theorem applied to a state whose function already
holds a PcRecord for 0x1000 with Ir 2; the new row with Ir 3 leaves exactly
the record of the new row. -/
theorem C5_witness :
    (c5St.isCallgrind && containsSub "instr".data c5St.positions) = true ∧
    ((jsGet ((CachegrindParser.applyDataRow c5St "a.c".data "f".data
        "0x1000 10 3".data).1).filesData "a.c".data).bind
        (fun fe1 => jsGet fe1.functions "f".data)).bind
      (fun fd1 => fd1.pcData.bind
        (fun pd1 => jsGet pd1 ((jsSplitWs "0x1000 10 3".data).getD 0 []))) =
      some (CachegrindParser.instrRowRec c5St.events (jsSplitWs "0x1000 10 3".data)) := by
  refine ⟨by decide, ?_⟩
  exact C5_duplicate_pc_last_row_wins c5St "a.c".data "f".data "0x1000 10 3".data c5Fe c5Fd
    [("0x1000".data, ⟨"0x1000".data, some 10, [("Ir".data, some 2)], true⟩)]
    (by decide) (by decide) (by decide) (by decide) (by decide)

namespace CachegrindParser

/-- Every line prefix the parser dispatches on; a trimmed line matching none
of these is a data row (or blank). -/
def directivePrefixes : List Str :=
  ["#".data, "events:".data, "cmd:".data, "pid:".data, "positions:".data,
   "part:".data, "ob=".data, "cob=".data, "fl=".data, "fi=".data, "fe=".data,
   "fn=".data, "calls=".data, "cfi=".data, "cfn=".data, "jcnd=".data,
   "jump=".data, "jfi=".data, "summary:".data]

/-- The truthiness guard of the data-row branch: both a current file and a
current function set to a non-empty name. -/
def dataRowCtx (st : ParserState) : Bool :=
  !(st.currentFile.getD []).isEmpty && !(st.currentFunction.getD []).isEmpty

theorem processLine_no_context (st : ParserState) (t : Str)
    (hpre : ∀ p ∈ directivePrefixes, startsWithStr p t = false)
    (hctx : dataRowCtx st = false) :
    processLine st t = .ok (st, true) := by
  have h1 : startsWithStr "events:".data t = false := hpre _ (by simp [directivePrefixes])
  have h2 : startsWithStr "cmd:".data t = false := hpre _ (by simp [directivePrefixes])
  have h3 : startsWithStr "pid:".data t = false := hpre _ (by simp [directivePrefixes])
  have h4 : startsWithStr "positions:".data t = false := hpre _ (by simp [directivePrefixes])
  have h5 : startsWithStr "part:".data t = false := hpre _ (by simp [directivePrefixes])
  have h6 : startsWithStr "ob=".data t = false := hpre _ (by simp [directivePrefixes])
  have h7 : startsWithStr "cob=".data t = false := hpre _ (by simp [directivePrefixes])
  have h8 : startsWithStr "fl=".data t = false := hpre _ (by simp [directivePrefixes])
  have h9 : startsWithStr "fi=".data t = false := hpre _ (by simp [directivePrefixes])
  have h10 : startsWithStr "fe=".data t = false := hpre _ (by simp [directivePrefixes])
  have h11 : startsWithStr "fn=".data t = false := hpre _ (by simp [directivePrefixes])
  have h12 : startsWithStr "cfi=".data t = false := hpre _ (by simp [directivePrefixes])
  have h13 : startsWithStr "cfn=".data t = false := hpre _ (by simp [directivePrefixes])
  have h14 : startsWithStr "jfi=".data t = false := hpre _ (by simp [directivePrefixes])
  have h15 : startsWithStr "summary:".data t = false := hpre _ (by simp [directivePrefixes])
  unfold processLine
  rw [if_neg (by simp [h1]), if_neg (by simp [h2]), if_neg (by simp [h3]),
    if_neg (by simp [h4]), if_neg (by simp [h5]), if_neg (by simp [h6]),
    if_neg (by simp [h7]), if_neg (by simp [h8]), if_neg (by simp [h9, h10]),
    if_neg (by simp [h11]), if_neg (by simp [h12]), if_neg (by simp [h13]),
    if_neg (by simp [h14]), if_neg (by simp [h15])]
  unfold dataRowCtx at hctx
  cases hcf : st.currentFile with
  | none => cases st.currentFunction <;> rfl
  | some f =>
    cases hcfn : st.currentFunction with
    | none => rfl
    | some fn =>
      rw [hcf, hcfn] at hctx
      simp only [Option.getD_some] at hctx
      dsimp only
      rw [if_neg (by simp [hctx])]

end CachegrindParser

/-- C10: a data row met while the current file and the current function are
not both established as non-empty names is silently discarded: the parser
state and the cleanliness flag are unchanged, no error is raised, and the
rest of the input parses exactly as if the row were absent. -/
theorem C10_data_row_without_context_ignored
    (st : ParserState) (clean : Bool) (fuel : Nat) (line : Str) (rest : List Str)
    (hpre : ∀ p ∈ CachegrindParser.directivePrefixes,
      startsWithStr p (jsTrim line) = false)
    (hctx : CachegrindParser.dataRowCtx st = false) :
    CachegrindParser.runC st clean (fuel + 1) (line :: rest) =
      CachegrindParser.runC st clean fuel rest := by
  have h0 : startsWithStr "#".data (jsTrim line) = false :=
    hpre _ (by simp [CachegrindParser.directivePrefixes])
  have hc : startsWithStr "calls=".data (jsTrim line) = false :=
    hpre _ (by simp [CachegrindParser.directivePrefixes])
  have hj1 : startsWithStr "jcnd=".data (jsTrim line) = false :=
    hpre _ (by simp [CachegrindParser.directivePrefixes])
  have hj2 : startsWithStr "jump=".data (jsTrim line) = false :=
    hpre _ (by simp [CachegrindParser.directivePrefixes])
  rw [CachegrindParser.runC.eq_def]
  dsimp only
  by_cases he : (jsTrim line).isEmpty = true
  · rw [if_pos (by simp [he])]
  · have he2 : (jsTrim line).isEmpty = false := by
      cases hx : (jsTrim line).isEmpty
      · rfl
      · exact absurd hx he
    rw [if_neg (by simp [he2, h0]), if_neg (by simp [hc]), if_neg (by simp [hj1, hj2]),
      CachegrindParser.processLine_no_context st (jsTrim line) hpre hctx]
    dsimp only
    rw [Bool.and_true]

/-- C10 witness: the bare data row 5 100 with no fl= or fn= before it leaves
the fresh state untouched. -/
theorem C10_witness :
    (∀ p ∈ CachegrindParser.directivePrefixes,
      startsWithStr p (jsTrim "5 100".data) = false) ∧
    CachegrindParser.dataRowCtx (CachegrindParser.initState false) = false ∧
    CachegrindParser.runC (CachegrindParser.initState false) true 1 ["5 100".data] =
      CachegrindParser.runC (CachegrindParser.initState false) true 0 [] :=
  ⟨by decide, by decide,
    C10_data_row_without_context_ignored (CachegrindParser.initState false) true 0
      "5 100".data [] (by decide) (by decide)⟩

def c7Input : String :=
  "# callgrind format\nevents: Ir\npositions: instr line\nfl=a.c\nfn=f\n0x2000 10 2\n0x1000 11 3"

/-- C7 counterexample: the PC records of f arrive in the order 0x2000, 0x1000,
so the node built for f gets pcStart 0x2000 and pcEnd 0x1000, while under
unsigned hexadecimal ordering the smallest PC is 0x1000 (4096 against 8192):
the range is first and last in insertion order, not hex order. -/
theorem C7_counterexample :
    (parsedFunction c7Input "a.c" "f").map (fun fd =>
      ((CallTreeViewer.createNode 0 "a.c".data "f".data fd).pcStart,
       (CallTreeViewer.createNode 0 "a.c".data "f".data fd).pcEnd)) =
      some ("0x2000".data, "0x1000".data) ∧
    (parsedFunction c7Input "a.c" "f").map (fun fd =>
      (fd.pcData.getD []).map Prod.fst) = some ["0x2000".data, "0x1000".data] ∧
    jsParseHex "0x1000".data = some 4096 ∧ jsParseHex "0x2000".data = some 8192 := by
  refine ⟨by decide, by decide, by decide, by decide⟩

theorem cons_get_last (d k1 : Str) (ks : List Str) :
    (k1 :: ks).get? ks.length = some ((k1 :: ks).getLastD d) := by
  induction ks generalizing k1 with
  | nil => rfl
  | cons k2 ks ih => exact ih k2

/-- C7 (amended): pcStart and pcEnd of a created node are the first and the
last PC key of its PcRecord map in stored (insertion) order, whenever those
keys are non-empty strings; with no PC records both are the empty string.
They are not the hexadecimal minimum and maximum. -/
theorem C7_pc_range_is_insertion_order
    (nid : Nat) (fileName funcName : Str) (fd : FunctionData) :
    (fd.pcData.getD [] = [] →
      (CallTreeViewer.createNode nid fileName funcName fd).pcStart = [] ∧
      (CallTreeViewer.createNode nid fileName funcName fd).pcEnd = []) ∧
    (∀ k1 ks, (fd.pcData.getD []).map Prod.fst = k1 :: ks → k1 ≠ [] →
      (k1 :: ks).getLastD [] ≠ [] →
      (CallTreeViewer.createNode nid fileName funcName fd).pcStart = k1 ∧
      (CallTreeViewer.createNode nid fileName funcName fd).pcEnd =
        (k1 :: ks).getLastD []) := by
  constructor
  · intro h
    unfold CallTreeViewer.createNode
    dsimp only
    rw [h]
    exact ⟨rfl, rfl⟩
  · intro k1 ks hkeys hk1 hlast
    have hk1e : k1.isEmpty = false := by
      cases k1 with
      | nil => exact absurd rfl hk1
      | cons a l => rfl
    have hkne : ((k1 :: ks).getLastD []).isEmpty = false := by
      cases hx : (k1 :: ks).getLastD [] with
      | nil => exact absurd hx hlast
      | cons a l => rfl
    unfold CallTreeViewer.createNode
    dsimp only
    rw [hkeys]
    constructor
    · show jsOrStr ((k1 :: ks).get? 0) [] = k1
      show jsOrStr (some k1) [] = k1
      simp [jsOrStr, hk1e]
    · show jsOrStr ((k1 :: ks).get? ((k1 :: ks).length - 1)) [] = (k1 :: ks).getLastD []
      have hlen : (k1 :: ks).length - 1 = ks.length := by
        simp [List.length_cons]
      rw [hlen, cons_get_last [] k1 ks]
      simp [jsOrStr, hkne]

def c7Fd : FunctionData :=
  { lines := [], totals := [], coveredLines := [], uncoveredLines := [],
    coveragePercentage := 0,
    pcData := some [("0x2000".data, ⟨"0x2000".data, some 10, [("Ir".data, some 2)], true⟩),
                    ("0x1000".data, ⟨"0x1000".data, some 11, [("Ir".data, some 3)], true⟩)],
    calls := none }

/-- C7 witness: the amended theorem applied to a function whose records came
in the order 0x2000, 0x1000 gives pcStart 0x2000 and pcEnd 0x1000. -/
theorem C7_witness :
    (CallTreeViewer.createNode 0 "a.c".data "f".data c7Fd).pcStart = "0x2000".data ∧
    (CallTreeViewer.createNode 0 "a.c".data "f".data c7Fd).pcEnd =
      ("0x2000".data :: ["0x1000".data]).getLastD [] :=
  (C7_pc_range_is_insertion_order 0 "a.c".data "f".data c7Fd).2
    "0x2000".data ["0x1000".data] (by decide) (by decide) (by decide)

/-! Entry-point resolution: the binary range search and its semantics. -/

def c6NodeA : CallTreeNode :=
  .mk "node-0".data "alpha".data "a.c".data "0x1000".data "0x5000".data 1 0 0 [] none

def c6NodeB : CallTreeNode :=
  .mk "node-1".data "beta".data "a.c".data "0x2000".data "0x2010".data 1 0 0 [] none

def c6NodeC : CallTreeNode :=
  .mk "node-2".data "gamma".data "a.c".data "0x3000".data "0x3010".data 1 0 0 [] none

/-- C6 counterexample: with the overlapping ranges alpha covering 0x1000 to
0x5000, beta 0x2000 to 0x2010 and gamma 0x3000 to 0x3010, the address 0x2800
lies inside the range of alpha, yet resolution returns nothing: the binary
search probes beta, overshoots to gamma and gives up, so the claimed
if-and-only-if range semantics fails on overlapping ranges. -/
theorem C6_counterexample :
    EntryPointMatcher.findEntryNode
      (EntryPointMatcher.buildIndex [c6NodeA, c6NodeB, c6NodeC]) "0x2800".data = none ∧
    ∃ r ∈ (EntryPointMatcher.buildIndex [c6NodeA, c6NodeB, c6NodeC]).pcRanges,
      r.node = c6NodeA ∧ r.start ≤ 0x2800 ∧ (0x2800 : Int) ≤ r.stop := by
  refine ⟨by decide, by decide⟩

namespace EntryPointMatcher

theorem findByPcRangeGo_sound (ranges : List PcRange) (addr : Int) (n : CallTreeNode) :
    ∀ (fuel : Nat) (left right : Int),
      findByPcRangeGo ranges addr fuel left right = some n →
      ∃ r ∈ ranges, r.node = n ∧ r.start ≤ addr ∧ addr ≤ r.stop := by
  intro fuel
  induction fuel with
  | zero => intro left right h; exact absurd h (by simp [findByPcRangeGo])
  | succ fuel ih =>
    intro left right h
    rw [findByPcRangeGo] at h
    split at h
    · dsimp only at h
      split at h
      · exact absurd h (by simp)
      · rename_i r hr
        split at h
        · rename_i hc
          exact ⟨r, List.get?_mem hr, by injection h, hc.1, hc.2⟩
        · split at h
          · exact ih _ _ h
          · exact ih _ _ h
    · exact absurd h (by simp)

theorem findByPcRangeGo_complete (ranges : List PcRange) (addr : Int)
    (hvalid : ∀ r ∈ ranges, r.start ≤ r.stop)
    (hsep : ranges.Pairwise (fun a b => a.stop < b.start)) :
    ∀ (fuel : Nat) (left right i : Int) (r : PcRange),
      ranges.get? i.toNat = some r → r.start ≤ addr → addr ≤ r.stop →
      0 ≤ left → left ≤ i → i ≤ right → right < (ranges.length : Int) →
      (right - left).toNat < fuel →
      findByPcRangeGo ranges addr fuel left right = some r.node := by
  have hPW : ∀ (a b : Nat) (ra rb : PcRange), a < b →
      ranges.get? a = some ra → ranges.get? b = some rb → ra.stop < rb.start := by
    intro a b ra rb hab hga hgb
    rw [List.get?_eq_some] at hga hgb
    obtain ⟨ha, hga⟩ := hga
    obtain ⟨hb, hgb⟩ := hgb
    have hp := List.pairwise_iff_get.mp hsep ⟨a, ha⟩ ⟨b, hb⟩ (Fin.mk_lt_mk.mpr hab)
    rw [hga, hgb] at hp
    exact hp
  intro fuel
  induction fuel with
  | zero => intro left right i r _ _ _ _ _ _ _ hf; omega
  | succ fuel ih =>
    intro left right i r hget hs he hl0 hli hir hrlen hf
    have hlr : left ≤ right := le_trans hli hir
    rw [findByPcRangeGo, if_pos hlr]
    dsimp only
    have hmidlen : ((left + right) / 2).toNat < ranges.length := by omega
    obtain ⟨r', hr'⟩ : ∃ r', ranges.get? ((left + right) / 2).toNat = some r' :=
      ⟨_, List.get?_eq_get hmidlen⟩
    rw [hr']
    dsimp only
    by_cases hhit : r'.start ≤ addr ∧ addr ≤ r'.stop
    · rw [if_pos hhit]
      have heq : ((left + right) / 2).toNat = i.toNat := by
        by_contra hne
        rcases Nat.lt_or_ge ((left + right) / 2).toNat i.toNat with hlt | hge
        · have := hPW _ _ r' r hlt hr' hget
          omega
        · have hlt2 : i.toNat < ((left + right) / 2).toNat := by omega
          have := hPW _ _ r r' hlt2 hget hr'
          omega
      have hrr : r' = r := by
        rw [heq, hget] at hr'
        exact (Option.some.inj hr').symm
      rw [hrr]
    · rw [if_neg hhit]
      by_cases hlt : addr < r'.start
      · rw [if_pos hlt]
        have hv' : r'.start ≤ r'.stop := hvalid r' (List.get?_mem hr')
        have hi2 : i < (left + right) / 2 := by
          by_contra hge
          push_neg at hge
          rcases Nat.lt_or_ge ((left + right) / 2).toNat i.toNat with h2 | h2
          · have := hPW _ _ r' r h2 hr' hget
            omega
          · have heq2 : ((left + right) / 2).toNat = i.toNat := by omega
            rw [heq2, hget] at hr'
            have := Option.some.inj hr'
            subst this
            exact hhit ⟨hs, he⟩
        exact ih left ((left + right) / 2 - 1) i r hget hs he hl0 hli (by omega)
          (by omega) (by omega)
      · rw [if_neg hlt]
        push_neg at hlt
        have hi2 : (left + right) / 2 < i := by
          by_contra hge
          push_neg at hge
          rcases Nat.lt_or_ge i.toNat ((left + right) / 2).toNat with h2 | h2
          · have := hPW _ _ r r' h2 hget hr'
            omega
          · have heq2 : ((left + right) / 2).toNat = i.toNat := by omega
            rw [heq2, hget] at hr'
            have := Option.some.inj hr'
            subst this
            exact hhit ⟨hs, he⟩
        exact ih ((left + right) / 2 + 1) right i r hget hs he (by omega) (by omega)
          hir hrlen (by omega)

end EntryPointMatcher

/-- C6 (amended): for a trimmed 0x-prefixed hex query that misses the exact
name and exact pc-start maps, resolution returns node n if and only if the
range array holds a range of n containing the address, provided the ranges
are valid and pairwise disjoint in order (consecutive separation); with
overlapping ranges the right-to-left direction fails. -/
theorem C6_entry_resolution_range_semantics
    (idx : EntryPointMatcher.EntryPointIndex) (q : Str) (addr : Int) (n : CallTreeNode)
    (hqe : q.isEmpty = false)
    (htrim : jsTrim q = q)
    (hpc : isPcLike q = true)
    (h0x : startsWithStr "0x".data q = true)
    (hname : jsGet idx.byName (strLower q) = none)
    (hpcstart : jsGet idx.byPcStart (strLower q) = none)
    (haddr : jsParseHex q = some addr)
    (hvalid : ∀ r ∈ idx.pcRanges, r.start ≤ r.stop)
    (hsep : idx.pcRanges.Pairwise (fun a b => a.stop < b.start)) :
    EntryPointMatcher.findEntryNode idx q = some n ↔
      ∃ r ∈ idx.pcRanges, r.node = n ∧ r.start ≤ addr ∧ addr ≤ r.stop := by
  have hEq : EntryPointMatcher.findEntryNode idx q = EntryPointMatcher.findByPcRange idx addr := by
    unfold EntryPointMatcher.findEntryNode
    rw [if_neg (by simp [hqe])]
    dsimp only
    rw [htrim, hname]
    dsimp only
    rw [if_pos hpc, if_pos h0x, hpcstart]
    dsimp only
    rw [haddr]
  rw [hEq]
  constructor
  · intro h
    exact EntryPointMatcher.findByPcRangeGo_sound idx.pcRanges addr n _ _ _ h
  · rintro ⟨r, hr, hnode, h1, h2⟩
    obtain ⟨j, hj⟩ := List.get_of_mem hr
    unfold EntryPointMatcher.findByPcRange
    rw [← hnode]
    refine EntryPointMatcher.findByPcRangeGo_complete idx.pcRanges addr hvalid hsep
      (idx.pcRanges.length + 1) 0 (idx.pcRanges.length - 1) (j : Int) r ?_ h1 h2
      (by omega) (by omega) (by omega) (by omega) (by omega)
    have : ((j : Int)).toNat = (j : Nat) := by omega
    rw [this, List.get?_eq_get j.isLt, hj]

def c6NodeF : CallTreeNode :=
  .mk "node-0".data "f".data "a.c".data "0x1000".data "0x1010".data 1 0 0 [] none

def c6NodeG : CallTreeNode :=
  .mk "node-1".data "g".data "a.c".data "0x2000".data "0x2040".data 1 0 0 [] none

/-- C6 witness: over the disjoint ranges f 0x1000 to 0x1010 and g 0x2000 to
0x2040, resolving 0x1008 (4104) is equivalent to membership of 4104 in a
stored range, and indeed yields f. -/
theorem C6_witness :
    (EntryPointMatcher.findEntryNode (EntryPointMatcher.buildIndex [c6NodeF, c6NodeG])
        "0x1008".data = some c6NodeF ↔
      ∃ r ∈ (EntryPointMatcher.buildIndex [c6NodeF, c6NodeG]).pcRanges,
        r.node = c6NodeF ∧ r.start ≤ 4104 ∧ (4104 : Int) ≤ r.stop) ∧
    EntryPointMatcher.findEntryNode (EntryPointMatcher.buildIndex [c6NodeF, c6NodeG])
      "0x1008".data = some c6NodeF :=
  ⟨C6_entry_resolution_range_semantics (EntryPointMatcher.buildIndex [c6NodeF, c6NodeG])
      "0x1008".data 4104 c6NodeF (by decide) (by decide) (by decide) (by decide)
      (by decide) (by decide) (by decide) (by decide) (by decide),
    by decide⟩

/-! The search engine: the full-name term of every indexed node reaches the
index, and search only widens its result set. -/

def c8Space : CallTreeNode :=
  .mk "node-9".data " ".data "a.c".data [] [] 1 0 0 [] none

/-- C8 counterexample: a node whose function name is a single space is
indexed (it has a term entry), its name length 1 is at most 32, yet searching
for exactly that name returns the empty set, because search discards any
query that trims to the empty string. -/
theorem C8_counterexample :
    (jsGet (CallTreeSearchEngine.buildIndex [c8Space]).nodeToTerms c8Space).isSome = true ∧
    c8Space.functionName.length ≤ 32 ∧
    CallTreeSearchEngine.search (CallTreeSearchEngine.buildIndex [c8Space])
      c8Space.functionName = [] := by
  refine ⟨by decide, by decide, by decide⟩

namespace CallTreeSearchEngine

theorem mem_jsSetAdd_of_mem {x y : CallTreeNode} {l : List CallTreeNode} (h : x ∈ l) :
    x ∈ jsSetAdd l y := by
  unfold jsSetAdd
  split
  · exact h
  · exact List.mem_append_left _ h

theorem mem_jsSetAdd_self (x : CallTreeNode) (l : List CallTreeNode) : x ∈ jsSetAdd l x := by
  unfold jsSetAdd
  split
  · assumption
  · exact List.mem_append_right _ (List.mem_singleton.mpr rfl)

theorem mem_foldl_jsSetAdd_acc (x : CallTreeNode) :
    ∀ (l acc : List CallTreeNode), x ∈ acc → x ∈ l.foldl jsSetAdd acc := by
  intro l
  induction l with
  | nil => intro acc h; exact h
  | cons y rest ih => intro acc h; exact ih _ (mem_jsSetAdd_of_mem h)

theorem mem_foldl_jsSetAdd_mem (x : CallTreeNode) :
    ∀ (l acc : List CallTreeNode), x ∈ l → x ∈ l.foldl jsSetAdd acc := by
  intro l
  induction l with
  | nil => intro acc h; exact absurd h (List.not_mem_nil x)
  | cons y rest ih =>
    intro acc h
    rcases List.mem_cons.mp h with h | h
    · subst h
      exact mem_foldl_jsSetAdd_acc x rest _ (mem_jsSetAdd_self x acc)
    · exact ih _ h

/-- The node is recorded at its own full lowercase name in the term map. -/
def nameHit (idx : SearchIndex) (n : CallTreeNode) : Prop :=
  ∃ s, jsGet idx.termToNodes (strLower n.functionName) = some s ∧ n ∈ s

/-- Every node holding a term entry is recorded at its full-name term. -/
def invFullName (idx : SearchIndex) : Prop :=
  ∀ n ts, jsGet idx.nodeToTerms n = some ts → nameHit idx n

theorem addToIndex_nameHit {idx : SearchIndex} {n : CallTreeNode} (t : Str) (m : CallTreeNode)
    (h : nameHit idx n) : nameHit (addToIndex idx t m) n := by
  obtain ⟨s, hs, hn⟩ := h
  by_cases ht : strLower n.functionName = t
  · subst ht
    refine ⟨jsSetAdd ((jsGet idx.termToNodes (strLower n.functionName)).getD []) m,
      jsGet_jsSet_self _ _ _, ?_⟩
    rw [hs]
    simp only [Option.getD_some]
    exact mem_jsSetAdd_of_mem hn
  · exact ⟨s, by
      show jsGet (jsSet idx.termToNodes t _) (strLower n.functionName) = some s
      rw [jsGet_jsSet_ne _ _ _ _ ht]
      exact hs, hn⟩

theorem addToIndex_self_nameHit (idx : SearchIndex) (n : CallTreeNode) :
    nameHit (addToIndex idx (strLower n.functionName) n) n :=
  ⟨_, jsGet_jsSet_self _ _ _, mem_jsSetAdd_self n _⟩

theorem addToIndex_nodeToTerms_cases {idx : SearchIndex} (t : Str) (m n : CallTreeNode)
    {ts : List Str} (h : jsGet (addToIndex idx t m).nodeToTerms n = some ts) :
    n = m ∨ ∃ ts0, jsGet idx.nodeToTerms n = some ts0 := by
  by_cases hnm : n = m
  · exact Or.inl hnm
  · refine Or.inr ⟨ts, ?_⟩
    rw [show (addToIndex idx t m).nodeToTerms =
      jsSet idx.nodeToTerms m _ from rfl, jsGet_jsSet_ne _ _ _ _ hnm] at h
    exact h

theorem termsFold_inv (node : CallTreeNode) :
    ∀ (ts : List Str) (idx : SearchIndex), invFullName idx → nameHit idx node →
      invFullName (ts.foldl (fun i t => addToIndex i t node) idx) ∧
      nameHit (ts.foldl (fun i t => addToIndex i t node) idx) node := by
  intro ts
  induction ts with
  | nil => intro idx hinv hhit; exact ⟨hinv, hhit⟩
  | cons t rest ih =>
    intro idx hinv hhit
    refine ih (addToIndex idx t node) ?_ (addToIndex_nameHit t node hhit)
    intro n ts0 hget
    rcases addToIndex_nodeToTerms_cases t node n hget with hnm | ⟨ts1, hts1⟩
    · subst hnm
      exact addToIndex_nameHit t n hhit
    · exact addToIndex_nameHit t node (hinv n ts1 hts1)

theorem nodeTermsFold_inv (node : CallTreeNode) (idx : SearchIndex) (hinv : invFullName idx) :
    invFullName ((indexTerms node.functionName).foldl (fun i t => addToIndex i t node) idx) := by
  obtain ⟨rest, hrest⟩ : ∃ rest,
      indexTerms node.functionName = strLower node.functionName :: rest := ⟨_, rfl⟩
  rw [hrest, List.foldl_cons]
  refine (termsFold_inv node rest _ ?_ (addToIndex_self_nameHit idx node)).1
  intro n ts0 hget
  rcases addToIndex_nodeToTerms_cases _ node n hget with hnm | ⟨ts1, hts1⟩
  · subst hnm
    exact addToIndex_self_nameHit idx n
  · exact addToIndex_nameHit _ node (hinv n ts1 hts1)

theorem indexChildrenF_inv
    (recur : CallTreeNode → (List Str × SearchIndex) → (List Str × SearchIndex))
    (hrec : ∀ c s, invFullName s.2 → invFullName (recur c s).2) :
    ∀ (cs : List CallTreeNode) (s : List Str × SearchIndex),
      invFullName s.2 → invFullName (indexChildrenF recur cs s).2 := by
  intro cs
  induction cs with
  | nil => intro s h; exact h
  | cons c rest ih => intro s h; exact ih _ (hrec c s h)

theorem indexNodeF_inv :
    ∀ (fuel : Nat) (node : CallTreeNode) (s : List Str × SearchIndex),
      invFullName s.2 → invFullName (indexNodeF fuel node s).2 := by
  intro fuel
  induction fuel with
  | zero => intro node s h; exact h
  | succ fuel ih =>
    intro node s h
    rw [indexNodeF]
    by_cases hv : node.id ∈ s.1
    · rw [if_pos hv]; exact h
    · rw [if_neg hv]
      dsimp only
      exact indexChildrenF_inv (indexNodeF fuel) ih node.children _ (nodeTermsFold_inv node s.2 h)

theorem buildIndex_inv (nodes : List CallTreeNode) : invFullName (buildIndex nodes) := by
  have base : invFullName emptyIndex := by
    intro n ts h
    exact Option.noConfusion h
  have gen : ∀ (l : List CallTreeNode) (s : List Str × SearchIndex), invFullName s.2 →
      invFullName (l.foldl (fun s n => indexNodeF 101 n s) s).2 := by
    intro l
    induction l with
    | nil => intro s h; exact h
    | cons m rest ih => intro s h; exact ih _ (indexNodeF_inv 101 m s h)
  exact gen nodes ([], emptyIndex) base

theorem searchPhase_mem (x : CallTreeNode) (g : Str × List CallTreeNode → Bool) :
    ∀ (l : List (Str × List CallTreeNode)) (acc : List CallTreeNode), x ∈ acc →
      x ∈ l.foldl (fun res p => if g p then p.2.foldl jsSetAdd res else res) acc := by
  intro l
  induction l with
  | nil => intro acc h; exact h
  | cons p rest ih =>
    intro acc h
    rw [List.foldl_cons]
    refine ih _ ?_
    by_cases hg : g p = true
    · rw [if_pos hg]
      exact mem_foldl_jsSetAdd_acc x p.2 acc h
    · rw [if_neg hg]
      exact h

theorem mem_search_exact (idx : SearchIndex) (n : CallTreeNode)
    (hhit : nameHit idx n)
    (htrim : jsTrim (strLower n.functionName) = strLower n.functionName)
    (hnem : (jsTrim n.functionName).isEmpty = false) :
    n ∈ search idx n.functionName := by
  have hne0 : n.functionName.isEmpty = false := by
    cases hx : n.functionName with
    | nil => rw [hx] at hnem; exact absurd hnem (by decide)
    | cons a l => rfl
  obtain ⟨s, hs, hn⟩ := hhit
  unfold search
  rw [if_neg (by simp [hne0, hnem])]
  dsimp only
  rw [htrim, hs]
  dsimp only
  have h0 : n ∈ s.foldl jsSetAdd ([] : List CallTreeNode) :=
    mem_foldl_jsSetAdd_mem n s [] hn
  split
  · split
    · exact searchPhase_mem n _ _ _ (searchPhase_mem n _ _ _ h0)
    · exact searchPhase_mem n _ _ _ h0
  · split
    · exact searchPhase_mem n _ _ _ h0
    · exact h0

end CallTreeSearchEngine

/-- C8 (amended): search of any query that trims to the empty string (the
empty query included) gives the empty set, and every indexed node n (one
holding a term entry) whose lowercase name is trim-stable and whose name does
not trim to nothing is in the result of searching its exact name; no length
bound is involved, as the full name is always the first indexed term. -/
theorem C8_search_empty_and_exact_name (nodes : List CallTreeNode) :
    (∀ q : Str, (jsTrim q).isEmpty = true →
      CallTreeSearchEngine.search (CallTreeSearchEngine.buildIndex nodes) q = []) ∧
    (∀ (n : CallTreeNode) (ts : List Str),
      jsGet (CallTreeSearchEngine.buildIndex nodes).nodeToTerms n = some ts →
      jsTrim (strLower n.functionName) = strLower n.functionName →
      (jsTrim n.functionName).isEmpty = false →
      n ∈ CallTreeSearchEngine.search (CallTreeSearchEngine.buildIndex nodes)
        n.functionName) := by
  constructor
  · intro q hq
    unfold CallTreeSearchEngine.search
    rw [if_pos (by simp [hq])]
  · intro n ts hget htrim hnem
    exact CallTreeSearchEngine.mem_search_exact _ n
      (CallTreeSearchEngine.buildIndex_inv nodes n ts hget) htrim hnem

def c8F : CallTreeNode :=
  .mk "node-0".data "main".data "a.c".data [] [] 1 0 0 [] none

def c8G : CallTreeNode :=
  .mk "node-1".data "computeValue".data "a.c".data [] [] 1 0 0 [] none

/-- C8 witness: over the two-node index, an all-whitespace query returns the
empty set, and searching exactly main finds the node named main. -/
theorem C8_witness :
    CallTreeSearchEngine.search (CallTreeSearchEngine.buildIndex [c8F, c8G]) "  ".data = [] ∧
    c8F ∈ CallTreeSearchEngine.search (CallTreeSearchEngine.buildIndex [c8F, c8G])
      c8F.functionName :=
  ⟨(C8_search_empty_and_exact_name [c8F, c8G]).1 "  ".data (by decide),
   (C8_search_empty_and_exact_name [c8F, c8G]).2 c8F
     ((jsGet (CallTreeSearchEngine.buildIndex [c8F, c8G]).nodeToTerms c8F).getD [])
     (by decide) (by decide) (by decide)⟩

/-! Subtree materialization: fuel stability and the per-path visited set. -/

def c9Fd (cs : List CallInfo) : FunctionData :=
  { lines := [], totals := [], coveredLines := [], uncoveredLines := [],
    coveragePercentage := 0, pcData := none, calls := some cs }

def c9Fm : List (Str × CallTreeViewer.FuncInfo) :=
  [("x:a".data, ⟨"x".data, "a".data, c9Fd
      [⟨some "x".data, some "b".data, 1, "0x0".data⟩,
       ⟨some "x".data, some "c".data, 1, "0x0".data⟩]⟩),
   ("x:b".data, ⟨"x".data, "b".data, c9Fd [⟨some "x".data, some "d".data, 1, "0x0".data⟩]⟩),
   ("x:c".data, ⟨"x".data, "c".data, c9Fd [⟨some "x".data, some "d".data, 1, "0x0".data⟩]⟩),
   ("x:d".data, ⟨"x".data, "d".data, c9Fd []⟩)]

/-- C9 counterexample: in the diamond a calling b and c, both calling d, the
map has 4 functions but materialization from a performs 5 expansions: the
visited set is copied per path (new Set(visited)), so d is expanded once
along each of the two paths, refuting the at most one expansion per node
bound. -/
theorem C9_counterexample :
    (CallTreeViewer.buildTreeFromNode c9Fm 10 "x:a".data [] 0).2.2 = 5 ∧
    ((c9Fm.map Prod.fst).dedup).length = 4 := by
  refine ⟨by decide, by decide⟩

namespace CallTreeViewer

theorem jsGet_mem_keys {α β : Type} [DecidableEq α] :
    ∀ (l : List (α × β)) (a : α) (b : β), jsGet l a = some b → a ∈ l.map Prod.fst := by
  intro l
  induction l with
  | nil => intro a b h; exact Option.noConfusion h
  | cons p rest ih =>
    intro a b h
    obtain ⟨k, v⟩ := p
    rw [jsGet] at h
    by_cases hk : k = a
    · subst hk
      simp
    · rw [if_neg hk] at h
      simp only [List.map_cons, List.mem_cons]
      exact Or.inr (ih a b h)

theorem filter_imp_sublist {α : Type} (p q : α → Bool) (h : ∀ x, p x = true → q x = true) :
    ∀ l : List α, List.Sublist (l.filter p) (l.filter q) := by
  intro l
  induction l with
  | nil => simp
  | cons a l ih =>
    rw [List.filter_cons, List.filter_cons]
    by_cases hp : p a = true
    · rw [if_pos hp, if_pos (h a hp)]
      exact List.Sublist.cons₂ a ih
    · rw [if_neg hp]
      by_cases hq : q a = true
      · rw [if_pos hq]
        exact List.Sublist.cons a ih
      · rw [if_neg hq]
        exact ih

theorem lengthOfUnvisited_cons_lt (fm : List (Str × FuncInfo)) (key : Str)
    (visited : List Str) (hv : key ∉ visited) (fi : FuncInfo)
    (hg : jsGet fm key = some fi) :
    lengthOfUnvisited fm (key :: visited) < lengthOfUnvisited fm visited := by
  unfold lengthOfUnvisited
  have hsub := filter_imp_sublist (fun k => !decide (k ∈ key :: visited))
    (fun k => !decide (k ∈ visited))
    (by
      intro x hx
      simp only [Bool.not_eq_true', decide_eq_false_iff_not, List.mem_cons, not_or] at hx ⊢
      exact fun h2 => hx.2 h2)
    ((fm.map Prod.fst).dedup)
  have hkeymem : key ∈ (fm.map Prod.fst).dedup :=
    List.mem_dedup.mpr (jsGet_mem_keys fm key fi hg)
  have hkeyfil : key ∈ ((fm.map Prod.fst).dedup).filter (fun k => !decide (k ∈ visited)) :=
    List.mem_filter.mpr ⟨hkeymem, by simp [hv]⟩
  have hkeynot : key ∉ ((fm.map Prod.fst).dedup).filter
      (fun k => !decide (k ∈ key :: visited)) := by
    intro hc
    have h2 := (List.mem_filter.mp hc).2
    simp at h2
  refine Nat.lt_of_le_of_ne (List.Sublist.length_le hsub) ?_
  intro heq
  rw [List.Sublist.eq_of_length hsub heq] at hkeynot
  exact hkeynot hkeyfil

theorem buildChildren_congr
    (recur1 recur2 : Str → List Str → Nat → Option CallTreeNode × Nat × Nat)
    (fileName : Str) (visited : List Str)
    (h : ∀ ck nid, recur1 ck visited nid = recur2 ck visited nid) :
    ∀ (calls : List CallInfo) (nid : Nat),
      buildChildren recur1 fileName visited calls nid =
        buildChildren recur2 fileName visited calls nid := by
  intro calls
  induction calls with
  | nil => intro nid; rfl
  | cons call rest ih =>
    intro nid
    rw [buildChildren, buildChildren]
    cases htf : call.targetFunction with
    | none => exact ih nid
    | some tfn =>
      dsimp only
      by_cases he : tfn.isEmpty = true
      · rw [if_pos he, if_pos he]
        exact ih nid
      · rw [if_neg he, if_neg he]
        rw [h]
        split
        · rw [ih]
        · rw [ih]

end CallTreeViewer

/-- C9 (amended): materialization terminates; its fuel cutoff is irrelevant
from one past the number of unvisited map keys upward, so the recursion depth
is bounded by the number of functions.  The expansion count, by contrast, is
not bounded by the number of functions: the visited set is per path, a node
reached along two paths is expanded twice, and only repeats along a single
path become stub leaves. -/
theorem C9_materialization_fuel_stable (fm : List (Str × CallTreeViewer.FuncInfo)) :
    ∀ (fuel1 fuel2 : Nat) (key : Str) (visited : List Str) (nid : Nat),
      CallTreeViewer.lengthOfUnvisited fm visited < fuel1 →
      CallTreeViewer.lengthOfUnvisited fm visited < fuel2 →
      CallTreeViewer.buildTreeFromNode fm fuel1 key visited nid =
        CallTreeViewer.buildTreeFromNode fm fuel2 key visited nid := by
  intro fuel1
  induction fuel1 with
  | zero => intro fuel2 key visited nid h1 h2; omega
  | succ fuel ih =>
    intro fuel2 key visited nid h1 h2
    cases fuel2 with
    | zero => omega
    | succ fuel2 =>
      rw [CallTreeViewer.buildTreeFromNode, CallTreeViewer.buildTreeFromNode]
      by_cases hv : key ∈ visited
      · rw [if_pos hv, if_pos hv]
      · rw [if_neg hv, if_neg hv]
        cases hg : jsGet fm key with
        | none => rfl
        | some fi =>
          dsimp only
          have hlt := CallTreeViewer.lengthOfUnvisited_cons_lt fm key visited hv fi hg
          have hcong := CallTreeViewer.buildChildren_congr
            (CallTreeViewer.buildTreeFromNode fm fuel)
            (CallTreeViewer.buildTreeFromNode fm fuel2) fi.fileName (key :: visited)
            (fun ck nid2 => ih fuel2 ck (key :: visited) nid2 (by omega) (by omega))
            (fi.funcData.calls.getD []) (nid + 1)
          rw [hcong]

/-- C9 witness: over the diamond map, fuel 5 and fuel 9 materializations from
a agree, the unvisited-key count 4 being below both. -/
theorem C9_witness :
    CallTreeViewer.lengthOfUnvisited c9Fm [] < 5 ∧
    CallTreeViewer.buildTreeFromNode c9Fm 5 "x:a".data [] 0 =
      CallTreeViewer.buildTreeFromNode c9Fm 9 "x:a".data [] 0 :=
  ⟨by decide, C9_materialization_fuel_stable c9Fm 5 9 "x:a".data [] 0 (by decide) (by decide)⟩


/-! Aggregation invariant: a clean parse keeps every function total equal to
the sum of its line records.  First the association-list bookkeeping. -/

theorem jsGet_mem {α β : Type} [DecidableEq α] :
    ∀ (l : List (α × β)) (a : α) (b : β), jsGet l a = some b → (a, b) ∈ l := by
  intro l
  induction l with
  | nil => intro a b h; exact Option.noConfusion h
  | cons p rest ih =>
    intro a b h
    obtain ⟨k, v⟩ := p
    rw [jsGet_cons] at h
    by_cases hk : k = a
    · rw [if_pos hk] at h
      subst hk
      rw [← Option.some.inj h]
      exact List.mem_cons_self _ _
    · rw [if_neg hk] at h
      exact List.mem_cons_of_mem _ (ih a b h)

theorem mem_jsSet_cases {α β : Type} [DecidableEq α] :
    ∀ (l : List (α × β)) (a : α) (b : β) (x : α × β),
      x ∈ jsSet l a b → x ∈ l ∨ x = (a, b) := by
  intro l
  induction l with
  | nil =>
    intro a b x h
    rw [jsSet] at h
    exact Or.inr (List.mem_singleton.mp h)
  | cons p rest ih =>
    intro a b x h
    obtain ⟨k, v⟩ := p
    rw [jsSet] at h
    by_cases hk : k = a
    · rw [if_pos hk] at h
      subst hk
      rcases List.mem_cons.mp h with hx | hx
      · exact Or.inr hx
      · exact Or.inl (List.mem_cons_of_mem _ hx)
    · rw [if_neg hk] at h
      rcases List.mem_cons.mp h with hx | hx
      · exact Or.inl (hx ▸ List.mem_cons_self _ _)
      · rcases ih a b x hx with hx2 | hx2
        · exact Or.inl (List.mem_cons_of_mem _ hx2)
        · exact Or.inr hx2

theorem sum_map_jsSet_new {α β : Type} [DecidableEq α] (g : β → Int) :
    ∀ (l : List (α × β)) (a : α) (b : β), jsGet l a = none →
      ((jsSet l a b).map (fun p => g p.2)).sum = (l.map (fun p => g p.2)).sum + g b := by
  intro l
  induction l with
  | nil => intro a b h; simp [jsSet]
  | cons p rest ih =>
    intro a b h
    obtain ⟨k, v⟩ := p
    rw [jsGet_cons] at h
    by_cases hk : k = a
    · rw [if_pos hk] at h
      exact Option.noConfusion h
    · rw [if_neg hk] at h
      rw [jsSet, if_neg hk]
      simp only [List.map_cons, List.sum_cons, ih a b h]
      omega

theorem sum_map_jsSet_update {α β : Type} [DecidableEq α] (g : β → Int) :
    ∀ (l : List (α × β)) (a : α) (b b0 : β), jsGet l a = some b0 →
      ((jsSet l a b).map (fun p => g p.2)).sum =
        (l.map (fun p => g p.2)).sum - g b0 + g b := by
  intro l
  induction l with
  | nil => intro a b b0 h; exact Option.noConfusion h
  | cons p rest ih =>
    intro a b b0 h
    obtain ⟨k, v⟩ := p
    rw [jsGet_cons] at h
    by_cases hk : k = a
    · rw [if_pos hk] at h
      rw [jsSet, if_pos hk]
      have hv : v = b0 := Option.some.inj h
      subst hv
      simp only [List.map_cons, List.sum_cons]
      omega
    · rw [if_neg hk] at h
      rw [jsSet, if_neg hk]
      simp only [List.map_cons, List.sum_cons, ih a b b0 h]
      omega

theorem zip_mem_left {α β : Type} :
    ∀ (l1 : List α) (l2 : List β) (e : α), e ∈ l1 → l2.length = l1.length →
      ∃ c, (e, c) ∈ l1.zip l2 := by
  intro l1
  induction l1 with
  | nil => intro l2 e he _; exact absurd he (List.not_mem_nil e)
  | cons a rest ih =>
    intro l2 e he hlen
    cases l2 with
    | nil => simp at hlen
    | cons c cs =>
      rcases List.mem_cons.mp he with he2 | he2
      · subst he2
        exact ⟨c, List.mem_cons_self _ _⟩
      · obtain ⟨c2, hc2⟩ := ih cs e he2 (by simpa using hlen)
        exact ⟨c2, List.mem_cons_of_mem _ hc2⟩

namespace CachegrindParser

theorem addTotals_notmem :
    ∀ (pairs : List (Str × JsNum)) (m : List (Str × JsNum)) (e : Str),
      (∀ pr ∈ pairs, pr.1 ≠ e) → jsGet (addTotals m pairs) e = jsGet m e := by
  intro pairs
  induction pairs with
  | nil => intro m e _; rfl
  | cons p rest ih =>
    intro m e hne
    show jsGet (addTotals (jsSet m p.1 _) rest) e = jsGet m e
    rw [ih _ e (fun pr hpr => hne pr (List.mem_cons_of_mem _ hpr))]
    exact jsGet_jsSet_ne m p.1 e _ (fun hc => hne p (List.mem_cons_self _ _) hc.symm)

theorem addTotals_get :
    ∀ (pairs : List (Str × JsNum)) (m : List (Str × JsNum)) (e : Str) (c : JsNum),
      (pairs.map Prod.fst).Nodup → (e, c) ∈ pairs →
      jsGet (addTotals m pairs) e = some (jsAdd ((jsGet m e).getD none) c) := by
  intro pairs
  induction pairs with
  | nil => intro m e c _ hmem; exact absurd hmem (List.not_mem_nil _)
  | cons p rest ih =>
    intro m e c hnd hmem
    obtain ⟨p1, p2⟩ := p
    show jsGet (addTotals (jsSet m p1 (jsAdd ((jsGet m p1).getD none) p2)) rest) e = _
    rcases List.mem_cons.mp hmem with heq | hmem2
    · obtain ⟨h1, h2⟩ := Prod.mk.injEq .. ▸ heq
      subst h1
      subst h2
      rw [addTotals_notmem rest _ e ?ne]
      · exact jsGet_jsSet_self m e _
      case ne =>
        intro pr hpr hc
        have : e ∈ rest.map Prod.fst := hc ▸ List.mem_map_of_mem Prod.fst hpr
        exact (List.nodup_cons.mp (by simpa using hnd)).1 this
    · have hne : e ≠ p1 := by
        intro hc
        have : e ∈ rest.map Prod.fst := List.mem_map_of_mem Prod.fst hmem2
        exact (List.nodup_cons.mp (by simpa using hnd)).1 (hc ▸ this)
      rw [ih _ e c (List.nodup_cons.mp (by simpa using hnd)).2 hmem2,
        jsGet_jsSet_ne m p1 e _ hne]

theorem mkMapFold_notmem :
    ∀ (pairs : List (Str × JsNum)) (m : List (Str × JsNum)) (e : Str),
      (∀ pr ∈ pairs, pr.1 ≠ e) →
      jsGet (pairs.foldl (fun m p => jsSet m p.1 p.2) m) e = jsGet m e := by
  intro pairs
  induction pairs with
  | nil => intro m e _; rfl
  | cons p rest ih =>
    intro m e hne
    rw [List.foldl_cons, ih _ e (fun pr hpr => hne pr (List.mem_cons_of_mem _ hpr))]
    exact jsGet_jsSet_ne m p.1 e _ (fun hc => hne p (List.mem_cons_self _ _) hc.symm)

theorem mkMapFold_get :
    ∀ (pairs : List (Str × JsNum)) (m : List (Str × JsNum)) (e : Str) (c : JsNum),
      (pairs.map Prod.fst).Nodup → (e, c) ∈ pairs →
      jsGet (pairs.foldl (fun m p => jsSet m p.1 p.2) m) e = some c := by
  intro pairs
  induction pairs with
  | nil => intro m e c _ hmem; exact absurd hmem (List.not_mem_nil _)
  | cons p rest ih =>
    intro m e c hnd hmem
    obtain ⟨p1, p2⟩ := p
    rw [List.foldl_cons]
    rcases List.mem_cons.mp hmem with heq | hmem2
    · obtain ⟨h1, h2⟩ := Prod.mk.injEq .. ▸ heq
      subst h1
      subst h2
      rw [mkMapFold_notmem rest _ e ?ne2]
      · exact jsGet_jsSet_self m e _
      case ne2 =>
        intro pr hpr hc
        have : e ∈ rest.map Prod.fst := hc ▸ List.mem_map_of_mem Prod.fst hpr
        exact (List.nodup_cons.mp (by simpa using hnd)).1 this
    · have hne : e ≠ p1 := by
        intro hc
        have : e ∈ rest.map Prod.fst := List.mem_map_of_mem Prod.fst hmem2
        exact (List.nodup_cons.mp (by simpa using hnd)).1 (hc ▸ this)
      rw [ih _ e c (List.nodup_cons.mp (by simpa using hnd)).2 hmem2]

theorem mkEventsMap_get (events : List Str) (counts : List JsNum) (e : Str) (c : JsNum)
    (hnd : events.Nodup) (hlen : counts.length = events.length)
    (hmem : (e, c) ∈ events.zip counts) :
    jsGet (mkEventsMap events counts) e = some c := by
  refine mkMapFold_get (events.zip counts) [] e c ?_ hmem
  rw [List.map_fst_zip events counts (by omega)]
  exact hnd

theorem aggEvents_notmem :
    ∀ (pairs : List (Str × JsNum)) (m : List (Str × JsNum)) (e : Str),
      (∀ pr ∈ pairs, pr.1 ≠ e) → jsGet (aggEvents m pairs) e = jsGet m e := by
  intro pairs
  induction pairs with
  | nil => intro m e _; rfl
  | cons p rest ih =>
    intro m e hne
    show jsGet (aggEvents (jsSet m p.1 _) rest) e = jsGet m e
    rw [ih _ e (fun pr hpr => hne pr (List.mem_cons_of_mem _ hpr))]
    exact jsGet_jsSet_ne m p.1 e _ (fun hc => hne p (List.mem_cons_self _ _) hc.symm)

theorem aggEvents_get :
    ∀ (pairs : List (Str × JsNum)) (m : List (Str × JsNum)) (e : Str) (c : JsNum),
      (pairs.map Prod.fst).Nodup → (e, c) ∈ pairs →
      jsGet (aggEvents m pairs) e = some (jsAdd (some (jsOrZero (jsGet m e))) c) := by
  intro pairs
  induction pairs with
  | nil => intro m e c _ hmem; exact absurd hmem (List.not_mem_nil _)
  | cons p rest ih =>
    intro m e c hnd hmem
    obtain ⟨p1, p2⟩ := p
    show jsGet (aggEvents (jsSet m p1 (jsAdd (some (jsOrZero (jsGet m p1))) p2)) rest) e = _
    rcases List.mem_cons.mp hmem with heq | hmem2
    · obtain ⟨h1, h2⟩ := Prod.mk.injEq .. ▸ heq
      subst h1
      subst h2
      rw [aggEvents_notmem rest _ e ?ne3]
      · exact jsGet_jsSet_self m e _
      case ne3 =>
        intro pr hpr hc
        have : e ∈ rest.map Prod.fst := hc ▸ List.mem_map_of_mem Prod.fst hpr
        exact (List.nodup_cons.mp (by simpa using hnd)).1 this
    · have hne : e ≠ p1 := by
        intro hc
        have : e ∈ rest.map Prod.fst := List.mem_map_of_mem Prod.fst hmem2
        exact (List.nodup_cons.mp (by simpa using hnd)).1 (hc ▸ this)
      rw [ih _ e c (List.nodup_cons.mp (by simpa using hnd)).2 hmem2,
        jsGet_jsSet_ne m p1 e _ hne]

theorem mkTotalsFold_notmem :
    ∀ (evs : List Str) (m : List (Str × JsNum)) (e : Str), e ∉ evs →
      jsGet (evs.foldl (fun m e2 => jsSet m e2 (some 0)) m) e = jsGet m e := by
  intro evs
  induction evs with
  | nil => intro m e _; rfl
  | cons e0 rest ih =>
    intro m e he
    rw [List.foldl_cons, ih _ e (fun hc => he (List.mem_cons_of_mem _ hc))]
    exact jsGet_jsSet_ne m e0 e _ (fun hc => he (hc ▸ List.mem_cons_self _ _))

theorem mkTotalsFold_get :
    ∀ (evs : List Str) (m : List (Str × JsNum)) (e : Str), e ∈ evs →
      jsGet (evs.foldl (fun m e2 => jsSet m e2 (some 0)) m) e = some (some 0) := by
  intro evs
  induction evs with
  | nil => intro m e he; exact absurd he (List.not_mem_nil e)
  | cons e0 rest ih =>
    intro m e he
    rw [List.foldl_cons]
    by_cases hr : e ∈ rest
    · exact ih _ e hr
    · have he0 : e = e0 := by
        rcases List.mem_cons.mp he with h | h
        · exact h
        · exact absurd h hr
      subst he0
      rw [mkTotalsFold_notmem rest _ e hr]
      exact jsGet_jsSet_self m e _

theorem mkTotals_get (evs : List Str) (e : Str) (he : e ∈ evs) :
    jsGet (mkTotals evs) e = some (some 0) :=
  mkTotalsFold_get evs [] e he

end CachegrindParser

theorem lineEventVal_eq (ld : LineData) (e : Str) :
    lineEventVal ld e = jsOrZero (jsGet ld.events e) := by
  unfold lineEventVal jsOrZero
  cases jsGet ld.events e with
  | none => rfl
  | some x => cases x <;> rfl

namespace CachegrindParser

/-- Per-function aggregation invariant: each vocabulary event total is the sum
of the line-record counts for that event. -/
def FdInv (events : List Str) (fd : FunctionData) : Prop :=
  ∀ e ∈ events, jsGet fd.totals e = some (some (sumLineEvents fd e))

/-- State-wide aggregation invariant, over every file entry and every function
record it holds. -/
def StInv (st : ParserState) : Prop :=
  ∀ p ∈ st.filesData, ∀ q ∈ p.2.functions, FdInv st.events q.2

theorem FdInv_congr (events : List Str) (fd1 fd : FunctionData)
    (ht : fd1.totals = fd.totals) (hl : fd1.lines = fd.lines) (h : FdInv events fd) :
    FdInv events fd1 := by
  intro e he
  have hs : sumLineEvents fd1 e = sumLineEvents fd e := by
    unfold sumLineEvents
    rw [hl]
  rw [ht, hs]
  exact h e he

theorem StInv_congr (st1 st : ParserState) (hf : st1.filesData = st.filesData)
    (he : st1.events = st.events) (h : StInv st) : StInv st1 := by
  intro p hp q hq
  rw [he]
  exact h p (hf ▸ hp) q hq

theorem applyEvents_inv (st : ParserState) (t : Str) (st1 : ParserState)
    (h : applyEvents st t = (st1, true)) : StInv st1 := by
  unfold applyEvents at h
  simp only [Prod.mk.injEq] at h
  obtain ⟨h1, h2⟩ := h
  subst h1
  intro p hp q hq
  have hemp : p.2.functions.isEmpty = true := List.all_eq_true.mp h2 p hp
  cases hfn : p.2.functions with
  | nil => rw [hfn] at hq; exact absurd hq (List.not_mem_nil q)
  | cons a l => rw [hfn] at hemp; exact absurd hemp (by simp)

theorem applyFl_inv (st : ParserState) (t : Str) (h : StInv st) : StInv (applyFl st t) := by
  intro p hp q hq
  have hev : (applyFl st t).events = st.events := applyFl_events st t
  rw [hev]
  unfold applyFl at hp
  dsimp only at hp
  split at hp
  · rcases mem_jsSet_cases _ _ _ p hp with hp2 | hp2
    · exact h p hp2 q hq
    · subst hp2
      exact absurd hq (List.not_mem_nil q)
  · rename_i fe hget
    split at hp
    · rcases mem_jsSet_cases _ _ _ p hp with hp2 | hp2
      · exact h p hp2 q hq
      · subst hp2
        exact h _ (jsGet_mem _ _ _ hget) q (by simpa using hq)
    · exact h p hp q hq

theorem applyFn_inv (st : ParserState) (t : Str) (st1 : ParserState)
    (h : applyFn st t = .ok (st1, true)) (hinv : StInv st) : StInv st1 := by
  unfold applyFn at h
  dsimp only at h
  cases hcf : st.currentFile with
  | none =>
    rw [hcf] at h
    simp only [Except.ok.injEq, Prod.mk.injEq] at h
    obtain ⟨h1, _⟩ := h
    subst h1
    exact StInv_congr _ st rfl rfl hinv
  | some f =>
    rw [hcf] at h
    dsimp only at h
    by_cases hg : (!f.isEmpty && !(t.drop 3).isEmpty) = true
    · rw [if_pos hg] at h
      cases hget : jsGet st.filesData f with
      | none => rw [hget] at h; exact Except.noConfusion h
      | some fe =>
        rw [hget] at h
        dsimp only at h
        simp only [Except.ok.injEq, Prod.mk.injEq] at h
        obtain ⟨h1, _⟩ := h
        subst h1
        intro p hp q hq
        rcases mem_jsSet_cases _ _ _ p hp with hp2 | hp2
        · exact hinv p hp2 q hq
        · subst hp2
          rcases mem_jsSet_cases _ _ _ q (by simpa using hq) with hq2 | hq2
          · exact hinv _ (jsGet_mem _ _ _ hget) q hq2
          · subst hq2
            intro e he
            show jsGet (mkTotals st.events) e = _
            rw [mkTotals_get st.events e he]
            rfl
    · rw [if_neg hg] at h
      simp only [Except.ok.injEq, Prod.mk.injEq] at h
      obtain ⟨h1, _⟩ := h
      subst h1
      exact StInv_congr _ st rfl rfl hinv

theorem applySummary_inv (st : ParserState) (t : Str) (h : StInv st) :
    StInv (applySummary st t) :=
  StInv_congr _ st rfl rfl h

theorem applyCalls_inv (st : ParserState) (t next : Str) (st1 : ParserState)
    (h : applyCalls st t next = .ok st1) (hinv : StInv st) : StInv st1 := by
  unfold applyCalls at h
  dsimp only at h
  cases hpm : pcPrefixMatch (jsTrim next) with
  | none =>
    rw [hpm] at h
    have h1 := Except.ok.inj h
    subst h1
    exact hinv
  | some sourcePc =>
    rw [hpm] at h
    dsimp only at h
    by_cases htr : (jsTruthy st.currentFunction && jsTruthy st.currentFile) = true
    · rw [if_pos htr] at h
      cases hcf : st.currentFile with
      | none =>
        rw [hcf] at h
        cases hcfn : st.currentFunction <;> rw [hcfn] at h <;>
          (have h1 := Except.ok.inj h; subst h1; exact hinv)
      | some f =>
        rw [hcf] at h
        cases hcfn : st.currentFunction with
        | none =>
          rw [hcfn] at h
          have h1 := Except.ok.inj h
          subst h1
          exact hinv
        | some fn =>
          rw [hcfn] at h
          dsimp only at h
          cases hget : jsGet st.filesData f with
          | none => rw [hget] at h; exact Except.noConfusion h
          | some fe =>
            rw [hget] at h
            dsimp only at h
            cases hget2 : jsGet fe.functions fn with
            | none => rw [hget2] at h; exact Except.noConfusion h
            | some fd =>
              rw [hget2] at h
              dsimp only at h
              have h1 := Except.ok.inj h
              subst h1
              intro p hp q hq
              rcases mem_jsSet_cases _ _ _ p hp with hp2 | hp2
              · exact hinv p hp2 q hq
              · subst hp2
                rcases mem_jsSet_cases _ _ _ q (by simpa using hq) with hq2 | hq2
                · exact hinv _ (jsGet_mem _ _ _ hget) q hq2
                · subst hq2
                  exact FdInv_congr st.events _ fd rfl rfl
                    (hinv _ (jsGet_mem _ _ _ hget) _ (jsGet_mem _ _ _ hget2))
    · rw [if_neg htr] at h
      have h1 := Except.ok.inj h
      subst h1
      exact hinv

end CachegrindParser

namespace CachegrindParser

theorem zip_fst_nodup (events : List Str) (counts : List JsNum)
    (hnd : events.Nodup) (hlen : counts.length = events.length) :
    ((events.zip counts).map Prod.fst).Nodup := by
  rw [List.map_fst_zip events counts (by omega)]
  exact hnd

/-- A clean line-only data row appends a fresh line record and adds the same
vector to the totals, preserving the aggregation invariant. -/
theorem FdInv_line_row_update (events : List Str) (counts : List JsNum)
    (hnd : events.Nodup) (hlen : counts.length = events.length)
    (hsome : counts.all Option.isSome = true)
    (fd : FunctionData) (hfd : FdInv events fd)
    (fd1 : FunctionData) (lineNum : JsNum) (exec : Bool)
    (hfresh : jsGet fd.lines lineNum = none)
    (hl : fd1.lines = jsSet fd.lines lineNum ⟨mkEventsMap events counts, exec⟩)
    (ht : fd1.totals = addTotals fd.totals (events.zip counts)) :
    FdInv events fd1 := by
  intro e he
  obtain ⟨c, hc⟩ := zip_mem_left events counts e he hlen
  obtain ⟨n, hn⟩ := Option.isSome_iff_exists.mp
    (List.all_eq_true.mp hsome c (List.of_mem_zip hc).2)
  subst hn
  have hS := hfd e he
  have hsum : sumLineEvents fd1 e =
      sumLineEvents fd e + lineEventVal ⟨mkEventsMap events counts, exec⟩ e := by
    unfold sumLineEvents
    rw [hl]
    exact sum_map_jsSet_new (fun ld => lineEventVal ld e) fd.lines lineNum _ hfresh
  have hld : lineEventVal ⟨mkEventsMap events counts, exec⟩ e = n := by
    unfold lineEventVal
    dsimp only
    rw [mkEventsMap_get events counts e (some n) hnd hlen hc]
  rw [ht, addTotals_get _ _ e _ (zip_fst_nodup events counts hnd hlen) hc, hS, hsum, hld]
  simp [jsAdd]

/-- A clean instruction-level data row aggregates the same vector into the
(possibly fresh) line record and into the totals, preserving the aggregation
invariant with no freshness requirement. -/
theorem FdInv_row_update (events : List Str) (counts : List JsNum)
    (hnd : events.Nodup) (hlen : counts.length = events.length)
    (hsome : counts.all Option.isSome = true)
    (fd : FunctionData) (hfd : FdInv events fd)
    (fd1 : FunctionData) (lineNum : JsNum) (exec : Bool)
    (hl : fd1.lines =
      (let lines0 := match jsGet fd.lines lineNum with
        | none => jsSet fd.lines lineNum ⟨[], false⟩
        | some _ => fd.lines
       jsSet lines0 lineNum
        ⟨aggEvents ((jsGet lines0 lineNum).getD ⟨[], false⟩).events (events.zip counts),
          exec⟩))
    (ht : fd1.totals = addTotals fd.totals (events.zip counts)) :
    FdInv events fd1 := by
  intro e he
  obtain ⟨c, hc⟩ := zip_mem_left events counts e he hlen
  obtain ⟨n, hn⟩ := Option.isSome_iff_exists.mp
    (List.all_eq_true.mp hsome c (List.of_mem_zip hc).2)
  subst hn
  have hS := hfd e he
  rw [ht, addTotals_get _ _ e _ (zip_fst_nodup events counts hnd hlen) hc, hS]
  dsimp only at hl
  cases hline : jsGet fd.lines lineNum with
  | none =>
    rw [hline] at hl
    dsimp only at hl
    rw [jsGet_jsSet_self] at hl
    simp only [Option.getD_some] at hl
    have hval : lineEventVal
        ⟨aggEvents (⟨[], false⟩ : LineData).events (events.zip counts), exec⟩ e = 0 + n := by
      unfold lineEventVal
      dsimp only
      rw [aggEvents_get _ _ e _ (zip_fst_nodup events counts hnd hlen) hc]
      rfl
    have hsum : sumLineEvents fd1 e = sumLineEvents fd e + (0 + n) := by
      unfold sumLineEvents
      rw [hl]
      rw [sum_map_jsSet_update (fun ld => lineEventVal ld e) _ lineNum _ ⟨[], false⟩
        (jsGet_jsSet_self _ _ _), sum_map_jsSet_new (fun ld => lineEventVal ld e) _ lineNum _
        hline, hval]
      show _ = (fd.lines.map (fun p => lineEventVal p.2 e)).sum + (0 + n)
      have hz : lineEventVal (⟨[], false⟩ : LineData) e = 0 := rfl
      rw [hz]
      omega
    rw [hsum]
    simp only [Option.getD_some, jsAdd]
    congr 2
    omega
  | some ld0 =>
    rw [hline] at hl
    dsimp only at hl
    rw [hline] at hl
    simp only [Option.getD_some] at hl
    have hval : lineEventVal ⟨aggEvents ld0.events (events.zip counts), exec⟩ e =
        lineEventVal ld0 e + n := by
      unfold lineEventVal
      dsimp only
      rw [aggEvents_get _ _ e _ (zip_fst_nodup events counts hnd hlen) hc]
      rw [← lineEventVal_eq ld0 e]
      rfl
    have hsum : sumLineEvents fd1 e = sumLineEvents fd e + n := by
      unfold sumLineEvents
      rw [hl]
      rw [sum_map_jsSet_update (fun ld => lineEventVal ld e) _ lineNum _ ld0 hline, hval]
      omega
    rw [hsum]
    simp [jsAdd]

end CachegrindParser

namespace CachegrindParser

theorem applyDataRow_inv (st : ParserState) (f fn : Str) (t : Str) (st1 : ParserState)
    (h : applyDataRow st f fn t = (st1, true)) (hinv : StInv st) : StInv st1 := by
  unfold applyDataRow at h
  dsimp only at h
  split at h
  · split at h
    · split at h
      · simp only [Prod.mk.injEq] at h
        obtain ⟨h1, _⟩ := h
        subst h1
        exact hinv
      · rename_i fe hget
        split at h
        · simp only [Prod.mk.injEq] at h
          obtain ⟨h1, _⟩ := h
          subst h1
          exact hinv
        · rename_i fd hget2
          simp only [Prod.mk.injEq] at h
          obtain ⟨h1, h2⟩ := h
          subst h1
          rw [Bool.and_eq_true] at h2
          obtain ⟨hnd0, hsome⟩ := h2
          have hnd : st.events.Nodup := of_decide_eq_true hnd0
          intro p hp q hq
          rcases mem_jsSet_cases _ _ _ p hp with hp2 | hp2
          · exact hinv p hp2 q hq
          · subst hp2
            rcases mem_jsSet_cases _ _ _ q hq with hq2 | hq2
            · exact hinv _ (jsGet_mem _ _ _ hget) q hq2
            · subst hq2
              have hfd : FdInv st.events fd :=
                hinv _ (jsGet_mem _ _ _ hget) _ (jsGet_mem _ _ _ hget2)
              exact FdInv_row_update st.events _ hnd (by simp) hsome fd hfd _ _ _ rfl rfl
    · simp only [Prod.mk.injEq] at h
      obtain ⟨h1, _⟩ := h
      subst h1
      exact hinv
  · split at h
    · split at h
      · simp only [Prod.mk.injEq] at h
        obtain ⟨h1, _⟩ := h
        subst h1
        exact hinv
      · rename_i fe hget
        split at h
        · simp only [Prod.mk.injEq] at h
          obtain ⟨h1, _⟩ := h
          subst h1
          exact hinv
        · rename_i fd hget2
          simp only [Prod.mk.injEq] at h
          obtain ⟨h1, h2⟩ := h
          subst h1
          rw [Bool.and_eq_true, Bool.and_eq_true] at h2
          obtain ⟨⟨hnd0, hsome⟩, hfresh0⟩ := h2
          have hnd : st.events.Nodup := of_decide_eq_true hnd0
          have hfresh := Option.isNone_iff_eq_none.mp hfresh0
          intro p hp q hq
          rcases mem_jsSet_cases _ _ _ p hp with hp2 | hp2
          · exact hinv p hp2 q hq
          · subst hp2
            rcases mem_jsSet_cases _ _ _ q hq with hq2 | hq2
            · exact hinv _ (jsGet_mem _ _ _ hget) q hq2
            · subst hq2
              have hfd : FdInv st.events fd :=
                hinv _ (jsGet_mem _ _ _ hget) _ (jsGet_mem _ _ _ hget2)
              refine FdInv_line_row_update st.events _ hnd ?_ hsome fd hfd _ _ _ hfresh rfl rfl
              rename_i hguard _ _
              simp only [List.length_map, List.length_take, List.length_drop]
              have hg2 := of_decide_eq_true hguard
              omega
    · simp only [Prod.mk.injEq] at h
      obtain ⟨h1, _⟩ := h
      subst h1
      exact hinv

end CachegrindParser

namespace CachegrindParser

theorem processLine_inv (st : ParserState) (t : Str) (st1 : ParserState)
    (h : processLine st t = .ok (st1, true)) (hinv : StInv st) : StInv st1 := by
  unfold processLine at h
  by_cases hb1 : startsWithStr "events:".data t = true
  · rw [if_pos hb1] at h
    first
      | (exact applyFn_inv st t st1 h hinv)
      | (have h2 := Except.ok.inj h
         first
           | (exact applyEvents_inv st t st1 h2)
           | (simp only [Prod.mk.injEq] at h2
              obtain ⟨h3, _⟩ := h2
              subst h3
              first
                | (exact StInv_congr _ st rfl rfl hinv)
                | (exact applyFl_inv st t hinv)
                | (exact applySummary_inv st t hinv)))
  rw [if_neg hb1] at h
  by_cases hb2 : startsWithStr "cmd:".data t = true
  · rw [if_pos hb2] at h
    first
      | (exact applyFn_inv st t st1 h hinv)
      | (have h2 := Except.ok.inj h
         first
           | (exact applyEvents_inv st t st1 h2)
           | (simp only [Prod.mk.injEq] at h2
              obtain ⟨h3, _⟩ := h2
              subst h3
              first
                | (exact StInv_congr _ st rfl rfl hinv)
                | (exact applyFl_inv st t hinv)
                | (exact applySummary_inv st t hinv)))
  rw [if_neg hb2] at h
  by_cases hb3 : startsWithStr "pid:".data t = true
  · rw [if_pos hb3] at h
    first
      | (exact applyFn_inv st t st1 h hinv)
      | (have h2 := Except.ok.inj h
         first
           | (exact applyEvents_inv st t st1 h2)
           | (simp only [Prod.mk.injEq] at h2
              obtain ⟨h3, _⟩ := h2
              subst h3
              first
                | (exact StInv_congr _ st rfl rfl hinv)
                | (exact applyFl_inv st t hinv)
                | (exact applySummary_inv st t hinv)))
  rw [if_neg hb3] at h
  by_cases hb4 : startsWithStr "positions:".data t = true
  · rw [if_pos hb4] at h
    first
      | (exact applyFn_inv st t st1 h hinv)
      | (have h2 := Except.ok.inj h
         first
           | (exact applyEvents_inv st t st1 h2)
           | (simp only [Prod.mk.injEq] at h2
              obtain ⟨h3, _⟩ := h2
              subst h3
              first
                | (exact StInv_congr _ st rfl rfl hinv)
                | (exact applyFl_inv st t hinv)
                | (exact applySummary_inv st t hinv)))
  rw [if_neg hb4] at h
  by_cases hb5 : startsWithStr "part:".data t = true
  · rw [if_pos hb5] at h
    first
      | (exact applyFn_inv st t st1 h hinv)
      | (have h2 := Except.ok.inj h
         first
           | (exact applyEvents_inv st t st1 h2)
           | (simp only [Prod.mk.injEq] at h2
              obtain ⟨h3, _⟩ := h2
              subst h3
              first
                | (exact StInv_congr _ st rfl rfl hinv)
                | (exact applyFl_inv st t hinv)
                | (exact applySummary_inv st t hinv)))
  rw [if_neg hb5] at h
  by_cases hb6 : startsWithStr "ob=".data t = true
  · rw [if_pos hb6] at h
    first
      | (exact applyFn_inv st t st1 h hinv)
      | (have h2 := Except.ok.inj h
         first
           | (exact applyEvents_inv st t st1 h2)
           | (simp only [Prod.mk.injEq] at h2
              obtain ⟨h3, _⟩ := h2
              subst h3
              first
                | (exact StInv_congr _ st rfl rfl hinv)
                | (exact applyFl_inv st t hinv)
                | (exact applySummary_inv st t hinv)))
  rw [if_neg hb6] at h
  by_cases hb7 : startsWithStr "cob=".data t = true
  · rw [if_pos hb7] at h
    first
      | (exact applyFn_inv st t st1 h hinv)
      | (have h2 := Except.ok.inj h
         first
           | (exact applyEvents_inv st t st1 h2)
           | (simp only [Prod.mk.injEq] at h2
              obtain ⟨h3, _⟩ := h2
              subst h3
              first
                | (exact StInv_congr _ st rfl rfl hinv)
                | (exact applyFl_inv st t hinv)
                | (exact applySummary_inv st t hinv)))
  rw [if_neg hb7] at h
  by_cases hb8 : startsWithStr "fl=".data t = true
  · rw [if_pos hb8] at h
    first
      | (exact applyFn_inv st t st1 h hinv)
      | (have h2 := Except.ok.inj h
         first
           | (exact applyEvents_inv st t st1 h2)
           | (simp only [Prod.mk.injEq] at h2
              obtain ⟨h3, _⟩ := h2
              subst h3
              first
                | (exact StInv_congr _ st rfl rfl hinv)
                | (exact applyFl_inv st t hinv)
                | (exact applySummary_inv st t hinv)))
  rw [if_neg hb8] at h
  by_cases hb9 : (startsWithStr "fi=".data t || startsWithStr "fe=".data t) = true
  · rw [if_pos hb9] at h
    first
      | (exact applyFn_inv st t st1 h hinv)
      | (have h2 := Except.ok.inj h
         first
           | (exact applyEvents_inv st t st1 h2)
           | (simp only [Prod.mk.injEq] at h2
              obtain ⟨h3, _⟩ := h2
              subst h3
              first
                | (exact StInv_congr _ st rfl rfl hinv)
                | (exact applyFl_inv st t hinv)
                | (exact applySummary_inv st t hinv)))
  rw [if_neg hb9] at h
  by_cases hb10 : startsWithStr "fn=".data t = true
  · rw [if_pos hb10] at h
    first
      | (exact applyFn_inv st t st1 h hinv)
      | (have h2 := Except.ok.inj h
         first
           | (exact applyEvents_inv st t st1 h2)
           | (simp only [Prod.mk.injEq] at h2
              obtain ⟨h3, _⟩ := h2
              subst h3
              first
                | (exact StInv_congr _ st rfl rfl hinv)
                | (exact applyFl_inv st t hinv)
                | (exact applySummary_inv st t hinv)))
  rw [if_neg hb10] at h
  by_cases hb11 : startsWithStr "cfi=".data t = true
  · rw [if_pos hb11] at h
    first
      | (exact applyFn_inv st t st1 h hinv)
      | (have h2 := Except.ok.inj h
         first
           | (exact applyEvents_inv st t st1 h2)
           | (simp only [Prod.mk.injEq] at h2
              obtain ⟨h3, _⟩ := h2
              subst h3
              first
                | (exact StInv_congr _ st rfl rfl hinv)
                | (exact applyFl_inv st t hinv)
                | (exact applySummary_inv st t hinv)))
  rw [if_neg hb11] at h
  by_cases hb12 : startsWithStr "cfn=".data t = true
  · rw [if_pos hb12] at h
    first
      | (exact applyFn_inv st t st1 h hinv)
      | (have h2 := Except.ok.inj h
         first
           | (exact applyEvents_inv st t st1 h2)
           | (simp only [Prod.mk.injEq] at h2
              obtain ⟨h3, _⟩ := h2
              subst h3
              first
                | (exact StInv_congr _ st rfl rfl hinv)
                | (exact applyFl_inv st t hinv)
                | (exact applySummary_inv st t hinv)))
  rw [if_neg hb12] at h
  by_cases hb13 : startsWithStr "jfi=".data t = true
  · rw [if_pos hb13] at h
    first
      | (exact applyFn_inv st t st1 h hinv)
      | (have h2 := Except.ok.inj h
         first
           | (exact applyEvents_inv st t st1 h2)
           | (simp only [Prod.mk.injEq] at h2
              obtain ⟨h3, _⟩ := h2
              subst h3
              first
                | (exact StInv_congr _ st rfl rfl hinv)
                | (exact applyFl_inv st t hinv)
                | (exact applySummary_inv st t hinv)))
  rw [if_neg hb13] at h
  by_cases hb14 : startsWithStr "summary:".data t = true
  · rw [if_pos hb14] at h
    first
      | (exact applyFn_inv st t st1 h hinv)
      | (have h2 := Except.ok.inj h
         first
           | (exact applyEvents_inv st t st1 h2)
           | (simp only [Prod.mk.injEq] at h2
              obtain ⟨h3, _⟩ := h2
              subst h3
              first
                | (exact StInv_congr _ st rfl rfl hinv)
                | (exact applyFl_inv st t hinv)
                | (exact applySummary_inv st t hinv)))
  rw [if_neg hb14] at h
  split at h
  · split at h
    · have h2 := Except.ok.inj h
      exact applyDataRow_inv st _ _ t st1 h2 hinv
    · have h2 := Except.ok.inj h
      simp only [Prod.mk.injEq] at h2
      obtain ⟨h3, _⟩ := h2
      subst h3
      exact hinv
  · have h2 := Except.ok.inj h
    simp only [Prod.mk.injEq] at h2
    obtain ⟨h3, _⟩ := h2
    subst h3
    exact hinv

end CachegrindParser

namespace CachegrindParser

theorem runC_flag :
    ∀ (fuel : Nat) (lines : List Str) (st : ParserState) (clean : Bool)
      (st1 : ParserState) (c1 : Bool),
      runC st clean fuel lines = .ok (st1, c1) → c1 = true → clean = true := by
  intro fuel
  induction fuel with
  | zero =>
    intro lines st clean st1 c1 h hc
    cases lines <;>
      (simp only [runC, Except.ok.injEq, Prod.mk.injEq] at h
       obtain ⟨_, h2⟩ := h
       rw [h2]
       exact hc)
  | succ fuel ih =>
    intro lines st clean st1 c1 h hc
    cases lines with
    | nil =>
      simp only [runC, Except.ok.injEq, Prod.mk.injEq] at h
      obtain ⟨_, h2⟩ := h
      rw [h2]
      exact hc
    | cons line rest =>
      rw [runC.eq_def] at h
      dsimp only at h
      split at h
      · exact ih rest st clean st1 c1 h hc
      · split at h
        · split at h
          · exact ih [] st clean st1 c1 h hc
          · split at h
            · exact Except.noConfusion h
            · exact ih _ _ clean st1 c1 h hc
        · split at h
          · split at h
            · split at h
              · exact ih _ st clean st1 c1 h hc
              · exact ih _ st clean st1 c1 h hc
            · exact ih [] st clean st1 c1 h hc
          · split at h
            · exact Except.noConfusion h
            · rename_i st2 ok1 hpl
              have := ih rest st2 (clean && ok1) st1 c1 h hc
              exact (Bool.and_eq_true .. ▸ this).1

theorem runC_inv :
    ∀ (fuel : Nat) (lines : List Str) (st : ParserState) (clean : Bool)
      (st1 : ParserState),
      runC st clean fuel lines = .ok (st1, true) → StInv st → StInv st1 := by
  intro fuel
  induction fuel with
  | zero =>
    intro lines st clean st1 h hinv
    cases lines <;>
      (simp only [runC, Except.ok.injEq, Prod.mk.injEq] at h
       obtain ⟨h1, _⟩ := h
       subst h1
       exact hinv)
  | succ fuel ih =>
    intro lines st clean st1 h hinv
    cases lines with
    | nil =>
      simp only [runC, Except.ok.injEq, Prod.mk.injEq] at h
      obtain ⟨h1, _⟩ := h
      subst h1
      exact hinv
    | cons line rest =>
      rw [runC.eq_def] at h
      dsimp only at h
      split at h
      · exact ih rest st clean st1 h hinv
      · split at h
        · split at h
          · exact ih [] st clean st1 h hinv
          · split at h
            · exact Except.noConfusion h
            · rename_i st2 hac
              exact ih _ st2 clean st1 h (applyCalls_inv st _ _ st2 hac hinv)
        · split at h
          · split at h
            · split at h
              · exact ih _ st clean st1 h hinv
              · exact ih _ st clean st1 h hinv
            · exact ih [] st clean st1 h hinv
          · split at h
            · exact Except.noConfusion h
            · rename_i st2 ok1 hpl
              have hand : (clean && ok1) = true :=
                runC_flag fuel rest st2 (clean && ok1) st1 true h rfl
              rw [Bool.and_eq_true] at hand
              obtain ⟨_, hok1⟩ := hand
              subst hok1
              exact ih rest st2 _ st1 h (processLine_inv st _ st2 hpl hinv)

end CachegrindParser

namespace CachegrindParser

theorem postFunctions_mem :
    ∀ (l : List (Str × FunctionData)) (acc : FileScan) (q : Str × FunctionData),
      q ∈ (postFunctions acc l).functions →
      q ∈ acc.functions ∨
        ∃ q0 ∈ l, q.2.totals = q0.2.totals ∧ q.2.lines = q0.2.lines := by
  intro l
  induction l with
  | nil => intro acc q h; exact Or.inl h
  | cons p rest ih =>
    intro acc q h
    obtain ⟨fname, fd⟩ := p
    rw [postFunctions] at h
    rcases ih _ q h with h2 | ⟨q0, hq0, hto, hli⟩
    · rcases List.mem_append.mp h2 with h3 | h3
      · exact Or.inl h3
      · right
        refine ⟨(fname, fd), List.mem_cons_self .., ?_⟩
        rw [List.mem_singleton.mp h3]
        exact ⟨rfl, rfl⟩
    · exact Or.inr ⟨q0, List.mem_cons_of_mem _ hq0, hto, hli⟩

theorem postStep_mem (events : List Str) :
    ∀ (l : List (Str × FileEntry)) (acc : List (Str × FileCoverage) × Nat × Nat)
      (q : Str × FileCoverage),
      q ∈ (l.foldl (postStep events) acc).1 →
      q ∈ acc.1 ∨ ∃ p ∈ l, q.2.functions =
        (postFunctions ⟨[], [], some 0, []⟩ p.2.functions).functions := by
  intro l
  induction l with
  | nil => intro acc q h; exact Or.inl h
  | cons p rest ih =>
    intro acc q h
    rw [List.foldl_cons] at h
    rcases ih _ q h with h2 | ⟨p2, hp2, hfun⟩
    · rcases List.mem_append.mp h2 with h3 | h3
      · exact Or.inl h3
      · right
        refine ⟨p, List.mem_cons_self .., ?_⟩
        rw [List.mem_singleton.mp h3]
    · exact Or.inr ⟨p2, List.mem_cons_of_mem _ hp2, hfun⟩

end CachegrindParser

/-- C3 (amended): for a clean parse (never re-setting the vocabulary after a
function exists, duplicate-free vocabulary, integer counts, and no line-only
row overwriting an existing line record), every function total of the parsed
profile equals the sum of that function's line-record counts for the event.
Without the cleanliness premise the equality fails, because a duplicate
line-only row replaces the line record while the totals keep accumulating. -/
theorem C3_totals_are_line_sums (content : String) (p : CachegrindData)
    (hclean : CachegrindParser.aggClean content = true)
    (hp : CachegrindParser.parse content = .ok p) :
    ∀ file fc, jsGet p.fileCoverage file = some fc →
    ∀ fn fd, jsGet fc.functions fn = some fd →
    ∀ e ∈ p.events, jsGet fd.totals e = some (some (sumLineEvents fd e)) := by
  unfold CachegrindParser.parse at hp
  unfold CachegrindParser.aggClean at hclean
  dsimp only at hp hclean
  cases hrun : CachegrindParser.runC
      (CachegrindParser.initState
        (decide (jsTrim ((splitOnChar '\n' content.data).headD []) =
          "# callgrind format".data)))
      true (splitOnChar '\n' content.data).length (splitOnChar '\n' content.data) with
  | error e =>
    rw [hrun] at hp
    exact Except.noConfusion hp
  | ok r =>
    obtain ⟨st, flag⟩ := r
    rw [hrun] at hp hclean
    dsimp only at hp hclean
    subst hclean
    have hpp := Except.ok.inj hp
    have hinit : CachegrindParser.StInv (CachegrindParser.initState
        (decide (jsTrim ((splitOnChar '\n' content.data).headD []) =
          "# callgrind format".data))) :=
      fun q hq => absurd hq (List.not_mem_nil q)
    have hinv : CachegrindParser.StInv st :=
      CachegrindParser.runC_inv (splitOnChar '\n' content.data).length
        (splitOnChar '\n' content.data) _ true st hrun hinit
    subst hpp
    intro file fc hfc fn fd hfd e he
    have hmemfc : (file, fc) ∈ (CachegrindParser.postProcess st).fileCoverage :=
      jsGet_mem _ _ _ hfc
    rcases CachegrindParser.postStep_mem st.events st.filesData ([], 0, 0) (file, fc)
        hmemfc with h2 | ⟨pf, hpf, hfun⟩
    · exact absurd h2 (List.not_mem_nil _)
    · have hmemfd : (fn, fd) ∈ fc.functions := jsGet_mem _ _ _ hfd
      rw [hfun] at hmemfd
      rcases CachegrindParser.postFunctions_mem pf.2.functions ⟨[], [], some 0, []⟩
          (fn, fd) hmemfd with h3 | ⟨q0, hq0, hto, hli⟩
      · exact absurd h3 (List.not_mem_nil _)
      · exact CachegrindParser.FdInv_congr st.events fd q0.2 hto hli
          (hinv pf hpf q0 hq0) e he

def c3wInput : String := "events: Ir\nfl=x.c\nfn=g\n5 100\n7 3"

def c3wDummyFd : FunctionData :=
  { lines := [], totals := [], coveredLines := [], uncoveredLines := [],
    coveragePercentage := 0, pcData := none, calls := none }

def c3wDummyFc : FileCoverage :=
  { sourceFilePath := [], totalLines := none, compiledLines := 0, coveredLines := 0,
    coveragePercentage := 0, coveredLineNumbers := [], uncoveredLineNumbers := [],
    sourceCode := [], functions := [], cachegrindEvents := [], objectFile := none }

def c3wDummyData : CachegrindData :=
  { projectName := [], analysisType := [], pid := [], events := [], totalLines := 0,
    coveredLines := 0, coveragePercentage := 0, filesAnalyzed := 0, fileCoverage := [],
    summaryTotals := [], cachegrindFile := [], isCallgrind := false }

def c3wData : CachegrindData := (CachegrindParser.parse c3wInput).toOption.getD c3wDummyData

def c3wFc : FileCoverage := (jsGet c3wData.fileCoverage "x.c".data).getD c3wDummyFc

def c3wFd : FunctionData := (jsGet c3wFc.functions "g".data).getD c3wDummyFd

/-- C3 witness: the clean two-row input for function g has its Ir total equal
to the sum of its two line records. -/
theorem C3_witness :
    CachegrindParser.aggClean c3wInput = true ∧
    jsGet c3wFd.totals "Ir".data = some (some (sumLineEvents c3wFd "Ir".data)) :=
  ⟨by decide,
    C3_totals_are_line_sums c3wInput c3wData (by decide) rfl "x.c".data c3wFc rfl
      "g".data c3wFd rfl "Ir".data (by decide)⟩
